import Mathlib

/-!
Verification of the boolean text-retrieval engine (lab3 tokenizer / indexer,
lab7 boolean search, and the standalone stemmer).

The C++ sources are shallowly embedded: byte strings are `List Nat` (each
entry a byte value), machine integers are `Nat` with explicit `% 2^32` /
`% 2^64` where the source relies on fixed-width wraparound, and fallible
operations return `Option`.  Each definition mirrors one function of the
source; the theorems at the end settle the frozen claims C1..C10.
-/

set_option maxHeartbeats 1000000

namespace IRSpec

/-! ## Codec (lab3/tokenize.cpp lines 14-88) -/

/-- `is_ascii_upper` (tokenize.cpp line 14), on codepoints. -/
def is_ascii_upper (cp : Nat) : Prop := 65 ≤ cp ∧ cp ≤ 90

instance : DecidablePred is_ascii_upper := fun _ => instDecidableAnd

/-- `is_ascii_digit` (tokenize.cpp line 15). -/
def is_ascii_digit (cp : Nat) : Prop := 48 ≤ cp ∧ cp ≤ 57

instance : DecidablePred is_ascii_digit := fun _ => instDecidableAnd

/-- `is_cyr_upper` (tokenize.cpp line 17): U+0410..U+042F or U+0401. -/
def is_cyr_upper (cp : Nat) : Prop := (0x410 ≤ cp ∧ cp ≤ 0x42F) ∨ cp = 0x401

instance : DecidablePred is_cyr_upper := fun _ => instDecidableOr

/-- `is_cyr_lower` (tokenize.cpp line 18): U+0430..U+044F or U+0451. -/
def is_cyr_lower (cp : Nat) : Prop := (0x430 ≤ cp ∧ cp ≤ 0x44F) ∨ cp = 0x451

instance : DecidablePred is_cyr_lower := fun _ => instDecidableOr

/-- `is_greek` (tokenize.cpp line 19): U+0370..U+03FF. -/
def is_greek (cp : Nat) : Prop := 0x370 ≤ cp ∧ cp ≤ 0x3FF

instance : DecidablePred is_greek := fun _ => instDecidableAnd

/-- `to_lower_cp` (tokenize.cpp lines 21-26). -/
def to_lower_cp (cp : Nat) : Nat :=
  if is_ascii_upper cp then cp + 32
  else if 0x410 ≤ cp ∧ cp ≤ 0x42F then cp + 32
  else if cp = 0x401 then 0x451
  else cp

/-- `is_letter` (tokenize.cpp lines 28-34): ASCII letter, Cyrillic, Greek or µ. -/
def is_letter (cp : Nat) : Prop :=
  (97 ≤ cp ∧ cp ≤ 122) ∨ (65 ≤ cp ∧ cp ≤ 90) ∨
  is_cyr_lower cp ∨ is_cyr_upper cp ∨ is_greek cp ∨ cp = 0xB5

instance : DecidablePred is_letter := fun _ => instDecidableOr

/-- `is_alnum` (tokenize.cpp line 35). -/
def is_alnum (cp : Nat) : Prop := is_letter cp ∨ is_ascii_digit cp

instance : DecidablePred is_alnum := fun _ => instDecidableOr

/-- `is_hyphen` (tokenize.cpp lines 37-39). -/
def is_hyphen (cp : Nat) : Prop :=
  cp = 0x2D ∨ cp = 0x2010 ∨ cp = 0x2011 ∨ cp = 0x2012 ∨ cp = 0x2212

instance : DecidablePred is_hyphen := fun _ => instDecidableOr

/-- `is_apostrophe` (tokenize.cpp line 40). -/
def is_apostrophe (cp : Nat) : Prop := cp = 0x27 ∨ cp = 0x2019

instance : DecidablePred is_apostrophe := fun _ => instDecidableOr

/-- `decode_utf8_next` (tokenize.cpp lines 42-71).  The C function takes the
byte string and a start index `i`; here the suffix `s.drop i` is passed, and
the returned pair is `(codepoint, bytes_consumed)`.  `none` corresponds to
the `i >= s.size()` return-false path. -/
def decode_utf8_next : List Nat → Option (Nat × Nat)
  | [] => none
  | c0 :: rest =>
    if c0 < 0x80 then some (c0, 1)
    else if c0 &&& 0xE0 = 0xC0 then
      match rest with
      | [] => some (0xFFFD, 1)
      | c1 :: _ =>
        if ¬ (c1 &&& 0xC0 = 0x80) then some (0xFFFD, 1)
        else some (((c0 &&& 0x1F) <<< 6) ||| (c1 &&& 0x3F), 2)
    else if c0 &&& 0xF0 = 0xE0 then
      match rest with
      | c1 :: c2 :: _ =>
        if ¬ (c1 &&& 0xC0 = 0x80) ∨ ¬ (c2 &&& 0xC0 = 0x80) then some (0xFFFD, 1)
        else some (((c0 &&& 0x0F) <<< 12) ||| ((c1 &&& 0x3F) <<< 6) ||| (c2 &&& 0x3F), 3)
      | _ => some (0xFFFD, 1)
    else if c0 &&& 0xF8 = 0xF0 then
      match rest with
      | c1 :: c2 :: c3 :: _ =>
        if ¬ (c1 &&& 0xC0 = 0x80) ∨ ¬ (c2 &&& 0xC0 = 0x80) ∨ ¬ (c3 &&& 0xC0 = 0x80) then
          some (0xFFFD, 1)
        else some (((c0 &&& 0x07) <<< 18) ||| ((c1 &&& 0x3F) <<< 12) |||
                   ((c2 &&& 0x3F) <<< 6) ||| (c3 &&& 0x3F), 4)
      | _ => some (0xFFFD, 1)
    else some (0xFFFD, 1)

/-- The decode operation at a start index into a byte string, matching the C
signature `decode_utf8_next(s, i, cp)`. -/
def decode_utf8_at (s : List Nat) (i : Nat) : Option (Nat × Nat) :=
  decode_utf8_next (s.drop i)

/-- A byte position holds a malformed UTF-8 sequence: a truncated multibyte
sequence, a bad continuation byte, or a lead byte matching no length class
(reading off the checks in tokenize.cpp lines 42-71). -/
def utf8_malformed_at (s : List Nat) (i : Nat) : Prop :=
  match s.drop i with
  | [] => False
  | c0 :: rest =>
    if c0 < 0x80 then False
    else if c0 &&& 0xE0 = 0xC0 then
      match rest with
      | [] => True
      | c1 :: _ => ¬ (c1 &&& 0xC0 = 0x80)
    else if c0 &&& 0xF0 = 0xE0 then
      match rest with
      | c1 :: c2 :: _ => ¬ (c1 &&& 0xC0 = 0x80) ∨ ¬ (c2 &&& 0xC0 = 0x80)
      | _ => True
    else if c0 &&& 0xF8 = 0xF0 then
      match rest with
      | c1 :: c2 :: c3 :: _ =>
        ¬ (c1 &&& 0xC0 = 0x80) ∨ ¬ (c2 &&& 0xC0 = 0x80) ∨ ¬ (c3 &&& 0xC0 = 0x80)
      | _ => True
    else True

/-- `append_utf8` (tokenize.cpp lines 73-88), returning the bytes appended
for one codepoint. -/
def append_utf8 (cp : Nat) : List Nat :=
  if cp ≤ 0x7F then [cp]
  else if cp ≤ 0x7FF then
    [0xC0 ||| ((cp >>> 6) &&& 0x1F), 0x80 ||| (cp &&& 0x3F)]
  else if cp ≤ 0xFFFF then
    [0xE0 ||| ((cp >>> 12) &&& 0x0F), 0x80 ||| ((cp >>> 6) &&& 0x3F), 0x80 ||| (cp &&& 0x3F)]
  else
    [0xF0 ||| ((cp >>> 18) &&& 0x07), 0x80 ||| ((cp >>> 12) &&& 0x3F),
     0x80 ||| ((cp >>> 6) &&& 0x3F), 0x80 ||| (cp &&& 0x3F)]

/-! ## English stemmer (unnamed/part_000 lines 18-121)

Tokens are ASCII strings, embedded as `List Char`.  The fixed 512-byte
scratch buffers of the C code surface as explicit length-512 guards: where
the C code `return`s because a token does not fit the buffer, the model
returns the token unchanged and skips the remaining steps. -/

/-- `ends_with_bytes` (part_000 lines 18-22). -/
def ends_with_bytes (s suf : List Char) : Bool := suf.isSuffixOf s

/-- `cut_suffix` (part_000 lines 24-28): drop the last `k` characters,
no-op when `k` exceeds the length. -/
def cut_suffix (s : List Char) (k : Nat) : List Char :=
  if s.length < k then s else s.take (s.length - k)

/-- `is_vowel_en` (part_000 lines 39-41). -/
def is_vowel_en (c : Char) : Bool :=
  c = 'a' || c = 'e' || c = 'i' || c = 'o' || c = 'u'

/-- `has_vowel_en` (part_000 lines 43-50): a vowel anywhere, or a `y` at a
position after the first. -/
def has_vowel_en (s : List Char) : Bool :=
  match s with
  | [] => false
  | c :: rest => is_vowel_en c || rest.any (fun x => is_vowel_en x || x = 'y')

/-- `is_consonant_en` (part_000 lines 52-55). -/
def is_consonant_en (c : Char) : Bool :=
  if c < 'a' || 'z' < c then false else !is_vowel_en c && c ≠ 'y'

/-- `ends_with_double_consonant_en` (part_000 lines 57-63). -/
def ends_with_double_consonant_en (s : List Char) : Bool :=
  match s.reverse with
  | a :: b :: _ => a = b && is_consonant_en a
  | _ => false

/-- The last two characters of a token (the `tail2` pointer of part_000
line 101). -/
def tail2 (s : List Char) : List Char := s.drop (s.length - 2)

/-- Step 2 of `stem_en` (part_000 lines 83-97), the verb-suffix step.  The
boolean is false when the C code `return`s early (token too long for the
scratch buffer), skipping steps 3-5. -/
def stem_en_verb_step (tok : List Char) : List Char × Bool :=
  if ends_with_bytes tok ['e', 'e', 'd'] then
    (if 4 < tok.length then tok.dropLast else tok, true)
  else if ends_with_bytes tok ['e', 'd'] then
    if 512 ≤ tok.length then (tok, false)
    else if has_vowel_en (cut_suffix tok 2) then (cut_suffix tok 2, true)
    else (tok, true)
  else if ends_with_bytes tok ['i', 'n', 'g'] then
    if 512 ≤ tok.length then (tok, false)
    else if has_vowel_en (cut_suffix tok 3) then (cut_suffix tok 3, true)
    else (tok, true)
  else (tok, true)

/-- Step 3 of `stem_en` (part_000 lines 99-105): append `e` after `at`,
`bl`, `iz`. -/
def stem_en_step3 (tok : List Char) : List Char :=
  if 2 ≤ tok.length ∧
      (tail2 tok = ['a', 't'] ∨ tail2 tok = ['b', 'l'] ∨ tail2 tok = ['i', 'z']) then
    if tok.length + 1 < 512 then tok ++ ['e'] else tok
  else tok

/-- Step 4 of `stem_en` (part_000 lines 107-111): drop a doubled consonant
unless it is `l`, `s` or `z`. -/
def stem_en_step4 (tok : List Char) : List Char :=
  if ends_with_double_consonant_en tok ∧ tok.getLast? ≠ some 'l' ∧
      tok.getLast? ≠ some 's' ∧ tok.getLast? ≠ some 'z' then tok.dropLast
  else tok

/-- Step 5 of `stem_en` (part_000 lines 113-120): final `y` becomes `i`
when the prefix has a vowel. -/
def stem_en_step5 (tok : List Char) : List Char :=
  if 2 ≤ tok.length ∧ tok.getLast? = some 'y' then
    if 512 ≤ tok.length then tok
    else if has_vowel_en tok.dropLast then tok.dropLast ++ ['i'] else tok
  else tok

/-- `stem_en` from the length recheck before step 2 onwards (part_000
lines 80-121). -/
def stem_en_after1 (tok : List Char) : List Char :=
  if tok.length < 3 then tok
  else
    match stem_en_verb_step tok with
    | (t, false) => t
    | (t, true) => stem_en_step5 (stem_en_step4 (stem_en_step3 t))

/-- `stem_en` (part_000 lines 65-121). -/
def stem_en (tok : List Char) : List Char :=
  if tok.length < 3 then tok
  else if ends_with_bytes tok ['s', 's', 'e', 's'] then stem_en_after1 (cut_suffix tok 2)
  else if ends_with_bytes tok ['i', 'e', 's'] then stem_en_after1 (cut_suffix tok 2)
  else if ends_with_bytes tok ['s', 's'] then stem_en_after1 tok
  else if ends_with_bytes tok ['s'] ∧ 3 < tok.length then
    if 512 ≤ tok.length then tok
    else if has_vowel_en tok.dropLast then stem_en_after1 (cut_suffix tok 1)
    else stem_en_after1 tok
  else stem_en_after1 tok

/-! ## Byte-level case folding (tokenize.cpp lines 309-330, identical in
bool_search.cpp lines 30-50) -/

/-- ASCII bytes of a string literal (used only to spell concrete inputs). -/
def ascii_bytes (s : String) : List Nat := s.toList.map Char.toNat

/-- The ASCII pass of `lowercase_inplace` (lines 310-313), one byte. -/
def lower_ascii_byte (b : Nat) : Nat := if 65 ≤ b ∧ b ≤ 90 then b + 32 else b

/-- The Cyrillic pass of `lowercase_inplace` (lines 315-329): a sliding
two-byte window `(prev, b1)`; after a rewrite the scan continues at the
second byte of the window, exactly as the C loop increments `i` by one.
`prev` is the byte currently at position `i`. -/
def lowercase_cyr_go (prev : Nat) : List Nat → List Nat
  | [] => [prev]
  | b1 :: rest =>
    if prev = 0xD0 ∧ 0x90 ≤ b1 ∧ b1 ≤ 0x9F then
      0xD0 :: lowercase_cyr_go (b1 + 0x20) rest
    else if prev = 0xD0 ∧ 0xA0 ≤ b1 ∧ b1 ≤ 0xAF then
      0xD1 :: lowercase_cyr_go (b1 - 0x20) rest
    else if prev = 0xD0 ∧ b1 = 0x81 then
      0xD1 :: lowercase_cyr_go 0x91 rest
    else prev :: lowercase_cyr_go b1 rest

/-- The Cyrillic pass over a whole byte string. -/
def lowercase_cyr_pass : List Nat → List Nat
  | [] => []
  | b :: rest => lowercase_cyr_go b rest

/-- `lowercase_inplace` (tokenize.cpp lines 309-330): ASCII pass then the
Cyrillic byte-pair pass. -/
def lowercase_inplace (s : List Nat) : List Nat :=
  lowercase_cyr_pass (s.map lower_ascii_byte)

/-! ## Document ids (tokenize.cpp lines 520-528 and 593-601) -/

/-- Language tag inferred from a path (`DocRec.lang`). -/
inductive Lang where
  | en
  | ru
  | unk
deriving DecidableEq

/-- The language inference of `build_index` (tokenize.cpp lines 593-596):
substring search for `/enwiki/` then `/ruwiki/` on the generic path. -/
def lang_of_path (p : List Nat) : Lang :=
  if ([47, 101, 110, 119, 105, 107, 105, 47] : List Nat) <:+: p then Lang.en
  else if ([47, 114, 117, 119, 105, 107, 105, 47] : List Nat) <:+: p then Lang.ru
  else Lang.unk

/-- `parse_docid_from_name` (tokenize.cpp lines 520-528): concatenate all
ASCII digits of the file stem, in 32-bit wrapping arithmetic. -/
def parse_docid_from_name (stem : List Nat) : Nat :=
  stem.foldl
    (fun v c => if c < 48 ∨ 57 < c then v else (v * 10 + (c - 48)) % 2 ^ 32) 0

/-- The docid assignment of `build_index` (tokenize.cpp lines 600-601):
the stem digits plus a 30000 offset for Russian documents, as `uint32_t`. -/
def docid_of (path stem : List Nat) : Nat :=
  (parse_docid_from_name stem + (if lang_of_path path = Lang.ru then 30000 else 0)) % 2 ^ 32

/-! ## Dictionary loading (bool_search.cpp lines 148-175) and term lookup
(tokenize.cpp lines 699-735, 764-777) -/

/-- One parsed line of `terms.tsv`.  `load_dict` stores the term bytes in a
contiguous pool and keeps `(term_off, term_len)`; the model keeps the term
bytes themselves, which is the same data. -/
structure DictLine where
  term : List Nat
  df : Nat
  post_off : Nat
  post_len : Nat
deriving DecidableEq

/-- `line.find('\t')` followed by the two `substr` calls around it: the
field before the first tab and the remainder after it, or `none` when the
line holds no tab (`std::string::npos`). -/
def split_tab (l : List Nat) : Option (List Nat × List Nat) :=
  if 9 ∈ l then some (l.takeWhile (fun b => b ≠ 9), (l.dropWhile (fun b => b ≠ 9)).tail)
  else none

/-- `strtoul` / `strtoull` base 10 on the digit-string fields the index
writer produces: the value of the leading run of ASCII digits (overflow
saturation of the C functions is not modelled; no claim exercises it). -/
def strtoul10_go (acc : Nat) : List Nat → Nat
  | [] => acc
  | c :: rest => if 48 ≤ c ∧ c ≤ 57 then strtoul10_go (acc * 10 + (c - 48)) rest else acc

/-- Numeric field parse used by `load_dict` and `lookup_term`. -/
def strtoul10 (l : List Nat) : Nat := strtoul10_go 0 l

/-- The per-line parse of `load_dict` (bool_search.cpp lines 158-173):
empty lines and lines with fewer than three tabs are skipped via
`continue`; otherwise the four fields are extracted (`df` is cast to
`uint32_t`). -/
def parse_dict_line (line : List Nat) : Option DictLine :=
  if line = [] then none
  else
    match split_tab line with
    | none => none
    | some (term, r1) =>
      match split_tab r1 with
      | none => none
      | some (f2, r2) =>
        match split_tab r2 with
        | none => none
        | some (f3, r3) => some ⟨term, strtoul10 f2 % 2 ^ 32, strtoul10 f3, strtoul10 r3⟩

/-- `load_dict` (bool_search.cpp lines 148-175) over the lines of
`terms.tsv`. -/
def load_dict (lines : List (List Nat)) : List DictLine :=
  lines.filterMap parse_dict_line

/-- The outcome of the `bool_index lookup` scan of `terms.tsv`. -/
inductive LookupResult where
  | notfound
  | bad
  | found (df post_off post_len : Nat)
deriving DecidableEq

/-- `lookup_term` (tokenize.cpp lines 699-735): scan lines for the first
whose leading field equals the term; tab-less lines and non-matching lines
are skipped; a matching line with fewer than three tabs is the fatal
`bad terms.tsv format` path. -/
def lookup_term (lines : List (List Nat)) (term : List Nat) : LookupResult :=
  match lines with
  | [] => LookupResult.notfound
  | line :: rest =>
    match split_tab line with
    | none => lookup_term rest term
    | some (t, r1) =>
      if t ≠ term then lookup_term rest term
      else
        match split_tab r1 with
        | none => LookupResult.bad
        | some (f2, r2) =>
          match split_tab r2 with
          | none => LookupResult.bad
          | some (f3, r3) =>
            LookupResult.found (strtoul10 f2 % 2 ^ 32) (strtoul10 f3) (strtoul10 r3)

/-- The `lookup` subcommand of `bool_index` (tokenize.cpp lines 764-777):
the `--term` argument is case-folded with `lowercase_inplace` before the
dictionary scan. -/
def lookup_cmd (lines : List (List Nat)) (term : List Nat) : LookupResult :=
  lookup_term lines (lowercase_inplace term)

/-! ## Index builder: postings finalization and on-disk write
(tokenize.cpp lines 648-676) -/

/-- `std::sort` over a postings array (tokenize.cpp line 662), modelled by
insertion sort. -/
def sort_postings (l : List Nat) : List Nat := List.insertionSort (· ≤ ·) l

/-- The in-place unique compaction loop (tokenize.cpp lines 665-669) after
the first element has been kept: keep each value differing from the last
kept one. -/
def compact_go (prev : Nat) : List Nat → List Nat
  | [] => []
  | y :: ys => if y = prev then compact_go prev ys else y :: compact_go y ys

/-- The full compaction (`w == 0` keeps the first element). -/
def compact_sorted : List Nat → List Nat
  | [] => []
  | x :: xs => x :: compact_go x xs

/-- Sort-then-compact, as run on each posting list before writing
(tokenize.cpp lines 662-670); afterwards `df` is the compacted length. -/
def finalize_postings (l : List Nat) : List Nat := compact_sorted (sort_postings l)

/-- The four bytes of one `uint32_t` as written by `postings.write`
(tokenize.cpp line 674) on a little-endian host. -/
def u32_le_bytes (x : Nat) : List Nat :=
  [x % 256, x / 256 % 256, x / 65536 % 256, x / 16777216 % 256]

/-- A finalized posting list as raw bytes. -/
def bytes_of_postings (l : List Nat) : List Nat := (l.map u32_le_bytes).flatten

/-- A term entry as it reaches the write loop: term bytes and the raw
(unsorted, possibly duplicated) postings accumulated during the build. -/
structure TermEntryW where
  term : List Nat
  postings : List Nat

/-- The write loop of `build_index` (tokenize.cpp lines 659-676): running
byte offset, one `terms.tsv` line per entry, postings written
contiguously.  Returns the dictionary lines and the `postings.bin`
bytes. -/
def write_index_go (offset : Nat) : List TermEntryW → List DictLine × List Nat
  | [] => ([], [])
  | e :: rest =>
    let p := finalize_postings e.postings
    let bytes_len := p.length * 4
    let r := write_index_go (offset + bytes_len) rest
    (⟨e.term, p.length, offset, bytes_len⟩ :: r.1, bytes_of_postings p ++ r.2)

/-- `build_index`'s write phase starting at offset 0. -/
def write_index (entries : List TermEntryW) : List DictLine × List Nat :=
  write_index_go 0 entries

/-- Reassemble `uint32_t` values from little-endian bytes (how
`load_postings` and `lookup_term` read a posting slice back). -/
def u32s_of_bytes : List Nat → List Nat
  | b0 :: b1 :: b2 :: b3 :: rest =>
    (b0 + 256 * b1 + 65536 * b2 + 16777216 * b3) :: u32s_of_bytes rest
  | _ => []

/-- Read `len` bytes at byte offset `off` of `postings.bin` and interpret
them as a `u32` array. -/
def read_u32s (file : List Nat) (off len : Nat) : List Nat :=
  u32s_of_bytes ((file.drop off).take len)

/-! ## Index builder: per-document token processing
(tokenize.cpp lines 485-518 and 604-624) -/

/-- Capacity of the per-document seen set: `seen_init(&seen, 1u << 15)`
(tokenize.cpp line 577), never grown. -/
def seen_cap : Nat := 32768

/-- The build state one document manipulates: the seen set and, for each
term key, its postings and `df`.  The hash table `tt` resolves a term's
bytes to its `TermEntry` by exact byte comparison (tokenize.cpp lines
464-483), so the table is extensionally these two maps; `seen_insert`
(lines 507-518) probes linearly over the whole power-of-two table, hence
it succeeds exactly when the entry is absent and fewer than `seen_cap`
entries are present. -/
structure BuildDocState where
  seen : List (List Nat)
  postings : List Nat → List Nat
  df : List Nat → Nat

/-- Processing of one token of one document (tokenize.cpp lines 612-623):
skip empty tokens; append `docid` and bump `df` only when `seen_insert`
returns true. -/
def doc_token_step (docid : Nat) (st : BuildDocState) (tok : List Nat) : BuildDocState :=
  if tok = [] then st
  else if tok ∈ st.seen then st
  else if seen_cap ≤ st.seen.length then st
  else
    { seen := tok :: st.seen,
      postings := fun t => if t = tok then st.postings t ++ [docid] else st.postings t,
      df := fun t => if t = tok then st.df t + 1 else st.df t }

/-- All tokens of one document, in order (the seen set was reset before
the document). -/
def process_doc (docid : Nat) (toks : List (List Nat)) (st : BuildDocState) :
    BuildDocState :=
  toks.foldl (doc_token_step docid) st

/-- Distinct non-empty tokens of a document not yet in the seen set. -/
def new_distinct (toks : List (List Nat)) (seen : List (List Nat)) : Nat :=
  ((toks.filter (fun t => t ≠ [] ∧ t ∉ seen)).dedup).length

/-- A two-byte token encoding of a number, used to spell out a document
with more distinct terms than the seen set can hold. -/
def cx_tok (j : Nat) : List Nat := [j / 256, j % 256]

/-! ## Query engine: sorted set algebra and the evaluator
(bool_search.cpp lines 215-265, 315-322, 389-417) -/

/-- `op_and` (bool_search.cpp lines 215-229): merge-intersection; any
leftover tail is dropped. -/
def op_and : List Nat → List Nat → List Nat
  | [], _ => []
  | _, [] => []
  | a :: ta, b :: tb =>
    if a = b then a :: op_and ta tb
    else if a < b then op_and ta (b :: tb)
    else op_and (a :: ta) tb
termination_by la lb => la.length + lb.length

/-- `op_or` (bool_search.cpp lines 231-246): merge-union keeping equal
heads once; leftovers are appended. -/
def op_or : List Nat → List Nat → List Nat
  | [], lb => lb
  | la, [] => la
  | a :: ta, b :: tb =>
    if a = b then a :: op_or ta tb
    else if a < b then a :: op_or ta (b :: tb)
    else b :: op_or (a :: ta) tb
termination_by la lb => la.length + lb.length

/-- `op_not` (bool_search.cpp lines 248-265): two-pointer difference
`U − B`; the inner `while` advancing `j` past smaller entries is the
`dropWhile`, and the pointer persists across outer iterations because the
recursive call continues on the dropped list. -/
def op_not : List Nat → List Nat → List Nat
  | [], _ => []
  | u :: us, lb =>
    let lb' := lb.dropWhile (fun b => b < u)
    if lb'.head? = some u then op_not us lb'
    else u :: op_not us lb'

/-- The query AST (bool_search.cpp lines 315-322). -/
inductive QueryNode where
  | term (t : List Nat)
  | and (a b : QueryNode)
  | or (a b : QueryNode)
  | not (a : QueryNode)

/-- `eval` (bool_search.cpp lines 389-417).  The index is abstracted by
`load`, the posting-list lookup that `load_postings` performs via
dictionary binary search; `U` is `ix.universe`.  A `TERM` node folds its
term with `lowercase_inplace` before the lookup, as the source does. -/
def eval (load : List Nat → List Nat) (U : List Nat) : QueryNode → List Nat
  | QueryNode.term t => load (lowercase_inplace t)
  | QueryNode.and a b => op_and (eval load U a) (eval load U b)
  | QueryNode.or a b => op_or (eval load U a) (eval load U b)
  | QueryNode.not a => op_not U (eval load U a)


/-! ## The two tokenizers (tokenize.cpp lines 93-136 and 332-401) -/

/-- `is_ascii_alpha` (tokenize.cpp line 306). -/
def is_ascii_alpha (c : Nat) : Prop := (65 ≤ c ∧ c ≤ 90) ∨ (97 ≤ c ∧ c ≤ 122)

instance : DecidablePred is_ascii_alpha := fun _ => instDecidableOr

/-- The byte-level `is_ascii_alnum` lambda (tokenize.cpp lines 342-344). -/
def is_ascii_alnum (c : Nat) : Bool := decide (is_ascii_alpha c ∨ is_ascii_digit c)

/-- The `is_cyr2_start` lambda (tokenize.cpp lines 335-341) on the suffix
starting at the probed index. -/
def is_cyr2_start : List Nat → Bool
  | b0 :: b1 :: _ => decide ((b0 = 0xD0 ∨ b0 = 0xD1) ∧ (0x80 ≤ b1 ∧ b1 ≤ 0xBF))
  | _ => false

/-- The `is_tok_start` lambda (tokenize.cpp lines 345-349) on the suffix
starting at the probed index. -/
def is_tok_start (l : List Nat) : Bool :=
  match l with
  | [] => false
  | c :: _ => is_ascii_alnum c || is_cyr2_start l

/-- `!tok.empty() && tok.back() is an ASCII digit`, shared by both
tokenizers for the decimal-point join rule. -/
def last_digit (tok : List Nat) : Bool :=
  match tok.getLast? with
  | some b => decide (is_ascii_digit b)
  | none => false

/-- `i+1 < line.size() && is_ascii_digit(line[i+1])` on the suffix after
the current byte. -/
def head_digit : List Nat → Bool
  | n :: _ => decide (is_ascii_digit n)
  | [] => false

/-- `has_next && is_alnum(next)` of the codepoint tokenizer, on the result
of the peek decode. -/
def peek_alnum : Option (Nat × Nat) → Bool
  | some (nc, _) => decide (is_alnum nc)
  | none => false

/-- `has_next && is_letter(next)` of the codepoint tokenizer. -/
def peek_letter : Option (Nat × Nat) → Bool
  | some (nc, _) => decide (is_letter nc)
  | none => false

/-- `has_next && is_ascii_digit(next)` of the codepoint tokenizer. -/
def peek_digit : Option (Nat × Nat) → Bool
  | some (nc, _) => decide (is_ascii_digit nc)
  | none => false

/-- The codepoint-level tokenizer loop (tokenize.cpp lines 93-130), carrying
the pending token `tok`; emitted tokens are returned in order, `flush`
appending `tok` when non-empty.  Branch order follows lines 109-129:
alnum, hyphen, plus, decimal point, apostrophe, otherwise flush. -/
def tokenize_cp_go (s : List Nat) (tok : List Nat) : List (List Nat) :=
  match hdec : decode_utf8_next s with
  | none => if tok = [] then [] else [tok]
  | some (cp, k) =>
    if is_alnum cp then
      tokenize_cp_go (s.drop k) (tok ++ append_utf8 (to_lower_cp cp))
    else if is_hyphen cp ∧ tok ≠ [] ∧ peek_alnum (decode_utf8_next (s.drop k)) = true then
      tokenize_cp_go (s.drop k) (tok ++ append_utf8 cp)
    else if cp = 43 ∧ tok ≠ [] ∧ peek_alnum (decode_utf8_next (s.drop k)) = true then
      tokenize_cp_go (s.drop k) (tok ++ append_utf8 cp)
    else if cp = 46 ∧ last_digit tok = true ∧ peek_digit (decode_utf8_next (s.drop k)) = true then
      tokenize_cp_go (s.drop k) (tok ++ append_utf8 cp)
    else if is_apostrophe cp ∧ tok ≠ [] ∧ peek_letter (decode_utf8_next (s.drop k)) = true then
      tokenize_cp_go (s.drop k) (tok ++ append_utf8 cp)
    else (if tok = [] then [] else [tok]) ++ tokenize_cp_go (s.drop k) []
termination_by s.length
decreasing_by
  all_goals
    rcases s with _ | ⟨c0, rest⟩
    · simp [decode_utf8_next] at hdec
    · have hk : 1 ≤ k := by
        simp only [decode_utf8_next] at hdec
        repeat' split at hdec
        all_goals simp only [Option.some.injEq, Prod.mk.injEq] at hdec
        all_goals omega
      simp only [List.length_drop, List.length_cons]
      omega

/-- `tokenize_line` of the tokenize tool (codepoint level). -/
def tokenize_line_cp (line : List Nat) : List (List Nat) := tokenize_cp_go line []

/-- The byte-level `tokenize_line` of the bool_index tool (tokenize.cpp
lines 332-401), carrying the pending token `cur`; `flush` lowercases the
pending bytes before emitting.  Branch order follows lines 363-397: ASCII
alnum, two-byte Cyrillic window, joiners `- + APOSTROPHE` before a token
start, decimal point between digits, otherwise flush one byte.  When the
Cyrillic window matches, `rest` is non-empty and its head is the second
window byte, so the branch pushes `c` and that head and skips both; the
empty arm of that inner match is unreachable, since the window requires
two bytes. -/
def tokenize_bool_go : List Nat → List Nat → List (List Nat)
  | [], cur => if cur = [] then [] else [lowercase_inplace cur]
  | c :: rest, cur =>
    if is_ascii_alnum c then tokenize_bool_go rest (cur ++ [c])
    else if is_cyr2_start (c :: rest) = true then
      match rest with
      | b1 :: rest2 => tokenize_bool_go rest2 (cur ++ [c, b1])
      | [] => []
    else if cur ≠ [] ∧ (c = 45 ∨ c = 43 ∨ c = 39) ∧ is_tok_start rest = true then
      tokenize_bool_go rest (cur ++ [c])
    else if cur ≠ [] ∧ c = 46 ∧ last_digit cur = true ∧ head_digit rest = true then
      tokenize_bool_go rest (cur ++ [c])
    else (if cur = [] then [] else [lowercase_inplace cur]) ++ tokenize_bool_go rest []

/-- `tokenize_line` of the bool_index tool (byte level). -/
def tokenize_line_bool (line : List Nat) : List (List Nat) := tokenize_bool_go line []

/-! ## Symbol-level well-formedness language for claim C7: lines made of
ASCII bytes and well-formed two-byte Cyrillic letters -/

/-- One line symbol: a single ASCII byte, or a Cyrillic letter codepoint. -/
inductive TSym where
  | asc : Nat → TSym
  | cyr : Nat → TSym
deriving DecidableEq

/-- Well-formedness of a symbol: ASCII bytes are below `0x80`, Cyrillic
codepoints are Cyrillic letters. -/
def symOK : TSym → Prop
  | TSym.asc b => b < 0x80
  | TSym.cyr cp => is_cyr_lower cp ∨ is_cyr_upper cp

instance : DecidablePred symOK := fun s =>
  match s with
  | TSym.asc _ => Nat.decLt _ _
  | TSym.cyr _ => instDecidableOr

/-- The codepoint a symbol decodes to. -/
def symVal : TSym → Nat
  | TSym.asc b => b
  | TSym.cyr cp => cp

/-- The UTF-8 bytes of a symbol. -/
def symEnc : TSym → List Nat
  | TSym.asc b => [b]
  | TSym.cyr cp => append_utf8 cp

/-- Symbol-level case folding. -/
def symLower : TSym → TSym
  | TSym.asc b => TSym.asc (to_lower_cp b)
  | TSym.cyr cp => TSym.cyr (to_lower_cp cp)

/-- The byte string of a symbol line. -/
def encLine (l : List TSym) : List Nat := (l.map symEnc).flatten

/-- An apostrophe symbol immediately followed by an ASCII digit symbol:
the one adjacency on which the two tokenizers disagree. -/
def apos_digit (a b : TSym) : Prop :=
  a = TSym.asc 39 ∧ match b with
    | TSym.asc d => is_ascii_digit d
    | TSym.cyr _ => False

instance : ∀ a b, Decidable (apos_digit a b) := fun _ b =>
  match b with
  | TSym.asc _ => instDecidableAnd
  | TSym.cyr _ => instDecidableAnd

/-- No apostrophe in the line is immediately followed by an ASCII digit. -/
def no_apos_digit (l : List TSym) : Prop :=
  List.Chain' (fun a b => ¬ apos_digit a b) l

instance no_apos_digit_dec : (l : List TSym) → Decidable (no_apos_digit l)
  | [] => isTrue (by simp [no_apos_digit])
  | [_] => isTrue (by simp [no_apos_digit])
  | a :: b :: r =>
    match (inferInstance : Decidable (apos_digit a b)), no_apos_digit_dec (b :: r) with
    | isTrue ha, _ => isFalse (fun hc => (List.chain'_cons.mp hc).1 ha)
    | isFalse hna, isTrue ht => isTrue (List.chain'_cons.mpr ⟨hna, ht⟩)
    | isFalse _, isFalse hnt => isFalse (fun hc => hnt (List.chain'_cons.mp hc).2)

/-- The last symbol of the pending list is an ASCII digit. -/
def pend_last_digit (pend : List TSym) : Prop :=
  match pend.getLast? with
  | some (TSym.asc b) => is_ascii_digit b
  | _ => False

/-- First byte of the two-byte UTF-8 encoding of a codepoint (the 2-byte
arm of append_utf8). -/
def enc0 (cp : Nat) : Nat := 0xC0 ||| ((cp >>> 6) &&& 0x1F)

/-- Second byte of the two-byte UTF-8 encoding of a codepoint. -/
def enc1 (cp : Nat) : Nat := 0x80 ||| (cp &&& 0x3F)

/-- One window step of the Cyrillic lowercase pass as a pair rewrite. -/
def cyr_step2 (prev b1 : Nat) : Nat × Nat :=
  if prev = 0xD0 ∧ 0x90 ≤ b1 ∧ b1 ≤ 0x9F then (0xD0, b1 + 0x20)
  else if prev = 0xD0 ∧ 0xA0 ≤ b1 ∧ b1 ≤ 0xAF then (0xD1, b1 - 0x20)
  else if prev = 0xD0 ∧ b1 = 0x81 then (0xD1, 0x91)
  else (prev, b1)

/-- The ASCII pass of lowercase_inplace at symbol level. -/
def ascLowerSym : TSym → TSym
  | TSym.asc b => TSym.asc (lower_ascii_byte b)
  | TSym.cyr cp => TSym.cyr cp

/-- The Cyrillic pass of lowercase_inplace at symbol level. -/
def cyrLowerSym : TSym → TSym
  | TSym.asc b => TSym.asc b
  | TSym.cyr cp => TSym.cyr (to_lower_cp cp)

/-! ## Theorems about the codec -/

/-- Every `some` result of the decoder has a codepoint below `2^21` and
consumes between 1 and 4 bytes. -/
theorem decode_utf8_next_bounds {s : List Nat} {cp k : Nat}
    (h : decode_utf8_next s = some (cp, k)) :
    cp < 0x200000 ∧ 1 ≤ k ∧ k ≤ 4 := by
  have two21 : (0x200000 : Nat) = 2 ^ 21 := by norm_num
  have band : ∀ x m : Nat, m < 0x200000 → x &&& m < 0x200000 := fun x m hm =>
    lt_of_le_of_lt Nat.and_le_right hm
  have bshl : ∀ x m t : Nat, (m + 1) * 2 ^ t ≤ 0x200000 → (x &&& m) <<< t < 0x200000 := by
    intro x m t hmt
    rw [Nat.shiftLeft_eq]
    calc (x &&& m) * 2 ^ t ≤ m * 2 ^ t :=
          Nat.mul_le_mul_right _ Nat.and_le_right
      _ < (m + 1) * 2 ^ t := by
          have := Nat.two_pow_pos t
          exact (Nat.mul_lt_mul_right this).mpr (Nat.lt_succ_self m)
      _ ≤ 0x200000 := hmt
  have bor : ∀ a b : Nat, a < 0x200000 → b < 0x200000 → a ||| b < 0x200000 := by
    intro a b ha hb
    rw [two21] at ha hb ⊢
    exact Nat.or_lt_two_pow ha hb
  match s with
  | [] => simp [decode_utf8_next] at h
  | c0 :: rest =>
    simp only [decode_utf8_next] at h
    repeat' split at h
    all_goals simp only [Option.some.injEq, Prod.mk.injEq] at h
    all_goals obtain ⟨rfl, rfl⟩ := h
    all_goals refine ⟨?_, by omega, by omega⟩
    all_goals try norm_num
    · omega
    · exact bor _ _ (bshl _ _ _ (by norm_num)) (band _ _ (by norm_num))
    · exact bor _ _ (bor _ _ (bshl _ _ _ (by norm_num)) (bshl _ _ _ (by norm_num)))
        (band _ _ (by norm_num))
    · exact bor _ _ (bor _ _ (bor _ _ (bshl _ _ _ (by norm_num)) (bshl _ _ _ (by norm_num)))
        (bshl _ _ _ (by norm_num))) (band _ _ (by norm_num))

/-- The decoder only fails on an out-of-range start position. -/
theorem decode_utf8_next_isSome {s : List Nat} (h : s ≠ []) :
    ∃ r, decode_utf8_next s = some r := by
  match s with
  | [] => exact absurd rfl h
  | c0 :: rest =>
    simp only [decode_utf8_next]
    repeat' split
    all_goals exact ⟨_, rfl⟩

/-- On a malformed position the decoder yields the replacement codepoint
`U+FFFD` and consumes exactly one byte. -/
theorem decode_utf8_next_malformed {s : List Nat} {i : Nat}
    (hm : utf8_malformed_at s i) {cp k : Nat}
    (h : decode_utf8_at s i = some (cp, k)) : cp = 0xFFFD ∧ k = 1 := by
  unfold decode_utf8_at at h
  unfold utf8_malformed_at at hm
  match hd : s.drop i with
  | [] => rw [hd] at hm; exact absurd hm not_false
  | c0 :: rest =>
    rw [hd] at hm h
    unfold decode_utf8_next at h
    by_cases h0 : c0 < 0x80
    · simp only [if_pos h0] at hm
    · simp only [if_neg h0] at hm h
      by_cases hA : c0 &&& 0xE0 = 0xC0
      · simp only [if_pos hA] at hm h
        match rest with
        | [] => simp_all
        | c1 :: r1 =>
          simp only at hm h
          rw [if_pos hm] at h
          simp_all
      · simp only [if_neg hA] at hm h
        by_cases hB : c0 &&& 0xF0 = 0xE0
        · simp only [if_pos hB] at hm h
          match rest with
          | [] => simp_all
          | [c1] => simp_all
          | c1 :: c2 :: r2 =>
            simp only at hm h
            rw [if_pos hm] at h
            simp_all
        · simp only [if_neg hB] at hm h
          by_cases hC : c0 &&& 0xF8 = 0xF0
          · simp only [if_pos hC] at hm h
            match rest with
            | [] => simp_all
            | [c1] => simp_all
            | [c1, c2] => simp_all
            | c1 :: c2 :: c3 :: r3 =>
              simp only at hm h
              rw [if_pos hm] at h
              simp_all
          · simp only [if_neg hC] at h
            simp_all

/-- C5 (amended): the UTF-8 decode operation is total for every in-range
start index, returning a codepoint at most `0x1FFFFF` (not `0x10FFFF`: the
4-byte branch never range-checks the result) consuming 1 to 4 bytes, and
every malformed sequence yields `U+FFFD` with exactly one byte consumed. -/
theorem C5_decode_total_bounded (s : List Nat) (i : Nat) (h : i < s.length) :
    ∃ cp k, decode_utf8_at s i = some (cp, k) ∧ cp ≤ 0x1FFFFF ∧ 1 ≤ k ∧ k ≤ 4 ∧
      (utf8_malformed_at s i → cp = 0xFFFD ∧ k = 1) := by
  have hne : s.drop i ≠ [] := by
    intro he
    rw [List.drop_eq_nil_iff] at he
    omega
  obtain ⟨⟨cp, k⟩, hr⟩ := decode_utf8_next_isSome hne
  have hb := decode_utf8_next_bounds hr
  exact ⟨cp, k, hr, by omega, hb.2.1, hb.2.2,
    fun hm => decode_utf8_next_malformed hm hr⟩

/-- C5 witness: the amended decode theorem applied to a concrete byte
string (a well-formed 2-byte Cyrillic sequence). -/
theorem C5_witness :
    0 < [0xD0, 0x90].length ∧
      (∃ cp k, decode_utf8_at [0xD0, 0x90] 0 = some (cp, k) ∧ cp ≤ 0x1FFFFF ∧
        1 ≤ k ∧ k ≤ 4 ∧
        (utf8_malformed_at [0xD0, 0x90] 0 → cp = 0xFFFD ∧ k = 1)) :=
  ⟨by decide, C5_decode_total_bounded [0xD0, 0x90] 0 (by decide)⟩

/-- C5 counterexample: on bytes `F7 BF BF BF` the decoder returns codepoint
`0x1FFFFF`, which exceeds the claimed upper bound `0x10FFFF`. -/
theorem C5_counterexample :
    decode_utf8_at [0xF7, 0xBF, 0xBF, 0xBF] 0 = some (0x1FFFFF, 4) ∧
      ¬ (0x1FFFFF ≤ 0x10FFFF) := by decide

/-! ## Theorems about the English stemmer -/

/-- A token shorter than 3 characters is left unchanged by `stem_en`. -/
theorem stem_en_of_length_lt_three {t : List Char} (h : t.length < 3) :
    stem_en t = t := by
  unfold stem_en
  rw [if_pos h]

/-- C6 counterexample: `feed` has length at least 3 and ends in `eed`, yet
the verb-suffix step leaves it unchanged instead of dropping the last
character (the branch demands length strictly greater than 4). -/
theorem C6_counterexample :
    3 ≤ (['f', 'e', 'e', 'd'] : List Char).length ∧
    ends_with_bytes ['f', 'e', 'e', 'd'] ['e', 'e', 'd'] = true ∧
    (stem_en_verb_step ['f', 'e', 'e', 'd']).1 ≠
      (['f', 'e', 'e', 'd'] : List Char).dropLast := by decide

/-- C6 (amended): on a token of length at least 3 ending in `eed`, the
verb-suffix step drops exactly the last character when the token is longer
than 4 characters, and leaves the token unchanged otherwise; it never cuts
the remaining steps short. -/
theorem C6_eed_branch (t : List Char) (h3 : 3 ≤ t.length)
    (he : ends_with_bytes t ['e', 'e', 'd'] = true) :
    stem_en_verb_step t = (if 4 < t.length then t.dropLast else t, true) := by
  unfold stem_en_verb_step
  rw [if_pos he]

/-- C6 witness: the amended `eed` rule applied to the concrete tokens
`agreed` (length above 4, one character dropped) and `feed`. -/
theorem C6_witness :
    (3 ≤ (['a', 'g', 'r', 'e', 'e', 'd'] : List Char).length ∧
      stem_en_verb_step ['a', 'g', 'r', 'e', 'e', 'd'] =
        (if 4 < (['a', 'g', 'r', 'e', 'e', 'd'] : List Char).length then
          (['a', 'g', 'r', 'e', 'e', 'd'] : List Char).dropLast
        else ['a', 'g', 'r', 'e', 'e', 'd'], true)) ∧
    stem_en_verb_step ['f', 'e', 'e', 'd'] =
      (if 4 < (['f', 'e', 'e', 'd'] : List Char).length then
        (['f', 'e', 'e', 'd'] : List Char).dropLast
      else ['f', 'e', 'e', 'd'], true) :=
  ⟨⟨by decide, C6_eed_branch ['a', 'g', 'r', 'e', 'e', 'd'] (by decide) (by decide)⟩,
    C6_eed_branch ['f', 'e', 'e', 'd'] (by decide) (by decide)⟩

/-- C8 counterexample: `stem_en` is not idempotent.  `matt` stems to `mat`
(double-consonant step), but stemming `mat` again appends `e` (tail
rewrite `at` → `ate`), giving `mate`. -/
theorem C8_counterexample :
    stem_en (stem_en ['m', 'a', 't', 't']) ≠ stem_en ['m', 'a', 't', 't'] := by decide

/-- C8 (amended): `stem_en` is not idempotent in general; it is idempotent
on every token whose stem comes out shorter than 3 characters (such stems
are fixed points of `stem_en`). -/
theorem C8_idempotent_short (t : List Char) (h : (stem_en t).length < 3) :
    stem_en (stem_en t) = stem_en t :=
  stem_en_of_length_lt_three h

/-- C8 witness: `ies` stems to `i`, whose length is below 3, so a second
application changes nothing. -/
theorem C8_witness :
    (stem_en ['i', 'e', 's']).length < 3 ∧
      stem_en (stem_en ['i', 'e', 's']) = stem_en ['i', 'e', 's'] :=
  ⟨by decide, C8_idempotent_short ['i', 'e', 's'] (by decide)⟩

/-! ## Theorems about byte-level case folding -/

/-- The ASCII byte fold is idempotent. -/
theorem lower_ascii_byte_idem (b : Nat) :
    lower_ascii_byte (lower_ascii_byte b) = lower_ascii_byte b := by
  unfold lower_ascii_byte
  by_cases h : 65 ≤ b ∧ b ≤ 90
  · rw [if_pos h, if_neg (by omega)]
  · rw [if_neg h, if_neg h]

/-- When the head of `X` cannot complete a fold window with `b0`, the scan
leaves `b0` alone and restarts on `X`. -/
theorem cyr_go_not_trigger (b0 : Nat) (X : List Nat)
    (h : ∀ b1, X.head? = some b1 →
      ¬(b0 = 0xD0 ∧ (0x90 ≤ b1 ∧ b1 ≤ 0x9F ∨ 0xA0 ≤ b1 ∧ b1 ≤ 0xAF ∨ b1 = 0x81))) :
    lowercase_cyr_go b0 X = b0 :: lowercase_cyr_pass X := by
  match X with
  | [] => simp [lowercase_cyr_go, lowercase_cyr_pass]
  | c :: r =>
    have hc := h c rfl
    simp only [lowercase_cyr_go, lowercase_cyr_pass]
    rw [if_neg (by tauto), if_neg (by tauto), if_neg (by tauto)]

/-- A scan byte other than `0xD0` never starts a fold window. -/
theorem cyr_go_not_d0 {b0 : Nat} (h : ¬ b0 = 0xD0) (X : List Nat) :
    lowercase_cyr_go b0 X = b0 :: lowercase_cyr_pass X :=
  cyr_go_not_trigger b0 X (fun _ _ hx => h hx.1)

/-- The first byte the Cyrillic scan emits is either the scan byte or
`0xD1`. -/
theorem cyr_go_head (b : Nat) (rest : List Nat) :
    (lowercase_cyr_go b rest).head? = some b ∨
    (lowercase_cyr_go b rest).head? = some 0xD1 := by
  match rest with
  | [] => left; simp [lowercase_cyr_go]
  | c :: r =>
    simp only [lowercase_cyr_go]
    by_cases h1 : b = 0xD0 ∧ 0x90 ≤ c ∧ c ≤ 0x9F
    · rw [if_pos h1]; left; rw [h1.1]; simp
    · rw [if_neg h1]
      by_cases h2 : b = 0xD0 ∧ 0xA0 ≤ c ∧ c ≤ 0xAF
      · rw [if_pos h2]; right; simp
      · rw [if_neg h2]
        by_cases h3 : b = 0xD0 ∧ c = 0x81
        · rw [if_pos h3]; right; simp
        · rw [if_neg h3]; left; simp

/-- Rescanning the output of the Cyrillic scan changes nothing. -/
theorem cyr_go_idem (X : List Nat) :
    ∀ prev, lowercase_cyr_pass (lowercase_cyr_go prev X) = lowercase_cyr_go prev X := by
  induction X with
  | nil => intro prev; simp [lowercase_cyr_go, lowercase_cyr_pass]
  | cons b1 rest ih =>
    intro prev
    have hstep : ∀ h t, lowercase_cyr_pass (h :: t) = lowercase_cyr_go h t := fun _ _ => rfl
    simp only [lowercase_cyr_go]
    by_cases h1 : prev = 0xD0 ∧ 0x90 ≤ b1 ∧ b1 ≤ 0x9F
    · rw [if_pos h1, hstep]
      rw [cyr_go_not_trigger 0xD0 _ ?hnt, ih (b1 + 0x20)]
      case hnt =>
        intro x hx
        rcases cyr_go_head (b1 + 0x20) rest with hh | hh <;> rw [hx] at hh <;>
          (injection hh with he) <;> omega
    · rw [if_neg h1]
      by_cases h2 : prev = 0xD0 ∧ 0xA0 ≤ b1 ∧ b1 ≤ 0xAF
      · rw [if_pos h2, hstep, cyr_go_not_d0 (by omega) _, ih (b1 - 0x20)]
      · rw [if_neg h2]
        by_cases h3 : prev = 0xD0 ∧ b1 = 0x81
        · rw [if_pos h3, hstep, cyr_go_not_d0 (by omega) _, ih 0x91]
        · rw [if_neg h3, hstep]
          rw [cyr_go_not_trigger prev _ ?hnt2, ih b1]
          case hnt2 =>
            intro x hx
            rcases cyr_go_head b1 rest with hh | hh <;> rw [hx] at hh <;>
              (injection hh with he)
            · subst he; tauto
            · omega

/-- The Cyrillic pass is idempotent. -/
theorem lowercase_cyr_pass_idem (l : List Nat) :
    lowercase_cyr_pass (lowercase_cyr_pass l) = lowercase_cyr_pass l := by
  match l with
  | [] => rfl
  | b :: rest => exact cyr_go_idem rest b

/-- Bytes rewritten by the Cyrillic scan are all at least `0x80`, so the
ASCII fold fixes its output whenever it fixes its input. -/
theorem map_lower_cyr_go_fixed (X : List Nat) :
    ∀ prev, lower_ascii_byte prev = prev → (∀ b ∈ X, lower_ascii_byte b = b) →
      (lowercase_cyr_go prev X).map lower_ascii_byte = lowercase_cyr_go prev X := by
  induction X with
  | nil => intro prev hp _; simp [lowercase_cyr_go, hp]
  | cons b1 rest ih =>
    intro prev hp hX
    have hb1 : lower_ascii_byte b1 = b1 := hX b1 (by simp)
    have hrest : ∀ b ∈ rest, lower_ascii_byte b = b := fun b hb => hX b (by simp [hb])
    simp only [lowercase_cyr_go]
    by_cases h1 : prev = 0xD0 ∧ 0x90 ≤ b1 ∧ b1 ≤ 0x9F
    · rw [if_pos h1]
      simp only [List.map_cons]
      rw [show lower_ascii_byte 0xD0 = 0xD0 from by decide]
      rw [ih (b1 + 0x20) (by unfold lower_ascii_byte; rw [if_neg (by omega)]) hrest]
    · rw [if_neg h1]
      by_cases h2 : prev = 0xD0 ∧ 0xA0 ≤ b1 ∧ b1 ≤ 0xAF
      · rw [if_pos h2]
        simp only [List.map_cons]
        rw [show lower_ascii_byte 0xD1 = 0xD1 from by decide]
        rw [ih (b1 - 0x20) (by unfold lower_ascii_byte; rw [if_neg (by omega)]) hrest]
      · rw [if_neg h2]
        by_cases h3 : prev = 0xD0 ∧ b1 = 0x81
        · rw [if_pos h3]
          simp only [List.map_cons]
          rw [show lower_ascii_byte 0xD1 = 0xD1 from by decide]
          rw [ih 0x91 (by decide) hrest]
        · rw [if_neg h3]
          simp only [List.map_cons]
          rw [hp, ih b1 hb1 hrest]

/-- The ASCII fold fixes the output of the full Cyrillic pass on
ASCII-folded input. -/
theorem map_lower_cyr_pass_fixed (l : List Nat)
    (h : ∀ b ∈ l, lower_ascii_byte b = b) :
    (lowercase_cyr_pass l).map lower_ascii_byte = lowercase_cyr_pass l := by
  match l with
  | [] => rfl
  | b :: rest =>
    exact map_lower_cyr_go_fixed rest b (h b (by simp))
      (fun x hx => h x (by simp [hx]))

/-- `lowercase_inplace` is idempotent. -/
theorem lowercase_inplace_idem (s : List Nat) :
    lowercase_inplace (lowercase_inplace s) = lowercase_inplace s := by
  unfold lowercase_inplace
  rw [map_lower_cyr_pass_fixed, lowercase_cyr_pass_idem]
  intro b hb
  obtain ⟨x, _, rfl⟩ := List.mem_map.mp hb
  exact lower_ascii_byte_idem x

/-- C10: the `bool_index lookup` subcommand case-folds its `--term`
argument before scanning `terms.tsv`, so any spelling `w` that folds to a
stored lowercase term `t` produces the same lookup result as `t` itself. -/
theorem C10_lookup_casefold (lines : List (List Nat)) (w t : List Nat)
    (h : lowercase_inplace w = t) :
    lookup_cmd lines w = lookup_cmd lines t := by
  unfold lookup_cmd
  rw [← h, lowercase_inplace_idem]

/-- C10 witness: a mixed-case spelling and the lowercase spelling of a
stored term give the same result on a concrete dictionary. -/
theorem C10_witness :
    lowercase_inplace (ascii_bytes ("NeuroScience")) = ascii_bytes ("neuroscience") ∧
      lookup_cmd [ascii_bytes ("neuroscience\t2\t0\t8")] (ascii_bytes ("NeuroScience")) =
        lookup_cmd [ascii_bytes ("neuroscience\t2\t0\t8")] (ascii_bytes ("neuroscience")) :=
  ⟨by decide,
    C10_lookup_casefold [ascii_bytes ("neuroscience\t2\t0\t8")]
      (ascii_bytes ("NeuroScience")) (ascii_bytes ("neuroscience")) (by decide)⟩

/-! ## Theorems about document ids -/

/-- The docid parse stays below `2^32`. -/
theorem parse_docid_from_name_lt (stem : List Nat) :
    parse_docid_from_name stem < 2 ^ 32 := by
  unfold parse_docid_from_name
  suffices h : ∀ (l : List Nat) (v : Nat), v < 2 ^ 32 →
      l.foldl (fun v c => if c < 48 ∨ 57 < c then v else (v * 10 + (c - 48)) % 2 ^ 32) v
        < 2 ^ 32 from h stem 0 (by norm_num)
  intro l
  induction l with
  | nil => intro v hv; simpa using hv
  | cons c r ih =>
    intro v hv
    simp only [List.foldl_cons]
    apply ih
    split
    · exact hv
    · exact Nat.mod_lt _ (by norm_num)

/-- C9 counterexample: an English document with stem digits `30005` and a
Russian document with stem digits `5` receive the same docid `30005`. -/
theorem C9_counterexample :
    lang_of_path (ascii_bytes ("c/enwiki/text/30005.txt")) = Lang.en ∧
    lang_of_path (ascii_bytes ("c/ruwiki/text/5.txt")) = Lang.ru ∧
    docid_of (ascii_bytes ("c/enwiki/text/30005.txt")) (ascii_bytes ("30005")) =
      docid_of (ascii_bytes ("c/ruwiki/text/5.txt")) (ascii_bytes ("5")) := by decide

/-- C9 (amended): the 30000 offset keeps English and Russian docids
disjoint provided every English stem parses below 30000 and every Russian
stem parses below `2^32 - 30000` (no wraparound). -/
theorem C9_docid_disjoint (pe se pr sr : List Nat)
    (hen : lang_of_path pe = Lang.en) (hru : lang_of_path pr = Lang.ru)
    (hbe : parse_docid_from_name se < 30000)
    (hbr : parse_docid_from_name sr < 2 ^ 32 - 30000) :
    docid_of pe se ≠ docid_of pr sr := by
  unfold docid_of
  rw [hen, hru]
  simp only [reduceCtorEq, if_false, if_true, Nat.add_zero, if_pos rfl]
  have e : (2 : Nat) ^ 32 = 4294967296 := by norm_num
  rw [e] at *
  omega

/-- C9 witness: the disjointness theorem applied to concrete English and
Russian documents. -/
theorem C9_witness :
    lang_of_path (ascii_bytes ("c/enwiki/text/12.txt")) = Lang.en ∧
    lang_of_path (ascii_bytes ("c/ruwiki/text/12.txt")) = Lang.ru ∧
    parse_docid_from_name (ascii_bytes ("12")) < 30000 ∧
    parse_docid_from_name (ascii_bytes ("12")) < 2 ^ 32 - 30000 ∧
    docid_of (ascii_bytes ("c/enwiki/text/12.txt")) (ascii_bytes ("12")) ≠
      docid_of (ascii_bytes ("c/ruwiki/text/12.txt")) (ascii_bytes ("12")) :=
  ⟨by decide, by decide, by decide, by decide,
    C9_docid_disjoint _ _ _ _ (by decide) (by decide) (by decide) (by decide)⟩

/-! ## Theorems about dictionary loading -/

/-- Removing the field before the first tab removes exactly one tab. -/
theorem count_tab_split (l : List Nat) (h : (9 : Nat) ∈ l) :
    l.count 9 = ((l.dropWhile (fun b => b ≠ 9)).tail).count 9 + 1 := by
  induction l with
  | nil => cases h
  | cons c r ih =>
    by_cases hc : c = 9
    · subst hc
      simp [List.dropWhile_cons, List.count_cons]
    · have h' : (9 : Nat) ∈ r := by
        rcases List.mem_cons.mp h with h9 | h9
        · exact absurd h9.symm hc
        · exact h9
      have hp : (decide (c ≠ 9)) = true := by simp [hc]
      rw [List.dropWhile_cons, if_pos hp, List.count_cons, ih h']
      have hne : ((9 : Nat) == c) = false := by
        simp only [beq_eq_false_iff_ne, ne_eq]
        exact fun he => hc he.symm
      simp [hne, hc]

/-- `split_tab` success decrements the tab count. -/
theorem split_tab_count {l a r : List Nat} (h : split_tab l = some (a, r)) :
    l.count 9 = r.count 9 + 1 := by
  unfold split_tab at h
  split at h
  · simp only [Option.some.injEq, Prod.mk.injEq] at h
    obtain ⟨_, rfl⟩ := h
    exact count_tab_split l (by assumption)
  · exact absurd h (by simp)

/-- A line with fewer than three tabs (fewer than four tab-separated
fields) never parses. -/
theorem parse_dict_line_none {line : List Nat} (h : line.count 9 < 3) :
    parse_dict_line line = none := by
  by_cases h0 : line = []
  · simp [parse_dict_line, h0]
  · cases h1 : split_tab line with
    | none => simp [parse_dict_line, h0, h1]
    | some p =>
      obtain ⟨term, r1⟩ := p
      have c1 := split_tab_count h1
      cases h2 : split_tab r1 with
      | none => simp [parse_dict_line, h0, h1, h2]
      | some q =>
        obtain ⟨f2, r2⟩ := q
        have c2 := split_tab_count h2
        cases h3 : split_tab r2 with
        | none => simp [parse_dict_line, h0, h1, h2, h3]
        | some w =>
          have c3 := split_tab_count h3
          exact absurd h (by omega)

/-- C4 counterexample: on a malformed `terms.tsv` line the reader does not
terminate; it skips the line and keeps loading the remaining lines. -/
theorem C4_counterexample :
    load_dict [ascii_bytes ("abc"), ascii_bytes ("beta\t2\t8\t8")] =
      [⟨ascii_bytes ("beta"), 2, 8, 8⟩] := by decide

/-- C4 (amended): at index load, a `terms.tsv` line with fewer than four
tab-separated fields is silently skipped; the reader continues with the
remaining lines instead of terminating. -/
theorem C4_malformed_line_skipped (line : List Nat) (lines : List (List Nat))
    (h : line.count 9 < 3) :
    load_dict (line :: lines) = load_dict lines := by
  unfold load_dict
  rw [List.filterMap_cons, parse_dict_line_none h]

/-- C4 witness: a concrete malformed line in front of a well-formed one is
dropped. -/
theorem C4_witness :
    (ascii_bytes ("alpha\t3")).count 9 < 3 ∧
      load_dict [ascii_bytes ("alpha\t3"), ascii_bytes ("beta\t2\t8\t8")] =
        load_dict [ascii_bytes ("beta\t2\t8\t8")] :=
  ⟨by decide,
    C4_malformed_line_skipped (ascii_bytes ("alpha\t3"))
      [ascii_bytes ("beta\t2\t8\t8")] (by decide)⟩

/-! ## Theorems about the index write phase -/

/-- The compaction of a `≤`-sorted tail behind a kept value is strictly
sorted and strictly above the kept value. -/
theorem compact_go_sorted (l : List Nat) : ∀ prev, List.Sorted (· ≤ ·) (prev :: l) →
    List.Sorted (· < ·) (compact_go prev l) ∧ ∀ y ∈ compact_go prev l, prev < y := by
  induction l with
  | nil => exact fun prev _ => ⟨List.sorted_nil, by simp [compact_go]⟩
  | cons y ys ih =>
    intro prev hs
    have hc := List.sorted_cons.mp hs
    have hpy : prev ≤ y := hc.1 y (by simp)
    have hs' : List.Sorted (· ≤ ·) (y :: ys) := hc.2
    simp only [compact_go]
    by_cases hy : y = prev
    · rw [if_pos hy]
      subst hy
      have hps : List.Sorted (· ≤ ·) (y :: ys) := by
        refine List.sorted_cons.mpr ⟨fun b hb => hc.1 b (by simp [hb]), ?_⟩
        exact (List.sorted_cons.mp hs').2
      exact ih y hps
    · rw [if_neg hy]
      have hlt : prev < y := lt_of_le_of_ne hpy (fun e => hy e.symm)
      obtain ⟨hsor, hbound⟩ := ih y hs'
      refine ⟨List.sorted_cons.mpr ⟨hbound, hsor⟩, ?_⟩
      intro z hz
      rcases List.mem_cons.mp hz with rfl | hz
      · exact hlt
      · exact lt_trans hlt (hbound z hz)

/-- A finalized posting list is strictly ascending. -/
theorem finalize_postings_sorted (l : List Nat) :
    List.Sorted (· < ·) (finalize_postings l) := by
  unfold finalize_postings sort_postings
  have hs := List.sorted_insertionSort (· ≤ ·) l
  match h : List.insertionSort (· ≤ ·) l with
  | [] => simp [compact_sorted]
  | x :: xs =>
    rw [h] at hs
    simp only [compact_sorted]
    exact List.sorted_cons.mpr ⟨(compact_go_sorted xs x hs).2, (compact_go_sorted xs x hs).1⟩

/-- Compaction only keeps values of the input. -/
theorem compact_go_subset (l : List Nat) :
    ∀ prev y, y ∈ compact_go prev l → y ∈ l := by
  induction l with
  | nil => intro _ y hy; simp [compact_go] at hy
  | cons z zs ih =>
    intro prev y hy
    simp only [compact_go] at hy
    by_cases hz : z = prev
    · rw [if_pos hz] at hy
      exact List.mem_cons_of_mem _ (ih prev y hy)
    · rw [if_neg hz] at hy
      rcases List.mem_cons.mp hy with rfl | hy
      · simp
      · exact List.mem_cons_of_mem _ (ih z y hy)

/-- Finalized postings are values of the raw postings. -/
theorem finalize_postings_subset {l : List Nat} {y : Nat}
    (hy : y ∈ finalize_postings l) : y ∈ l := by
  unfold finalize_postings sort_postings at hy
  have hperm := List.perm_insertionSort (· ≤ ·) l
  match h : List.insertionSort (· ≤ ·) l with
  | [] => rw [h] at hy; simp [compact_sorted] at hy
  | x :: xs =>
    rw [h] at hy hperm
    simp only [compact_sorted] at hy
    apply hperm.mem_iff.mp
    rcases List.mem_cons.mp hy with rfl | hy
    · simp
    · exact List.mem_cons_of_mem _ (compact_go_subset xs x y hy)

/-- Little-endian serialization followed by `u32` reassembly is the
identity on 32-bit values. -/
theorem u32s_of_bytes_of_postings (p : List Nat) (h : ∀ x ∈ p, x < 2 ^ 32) :
    u32s_of_bytes (bytes_of_postings p) = p := by
  induction p with
  | nil => rfl
  | cons x xs ih =>
    have hx : x < 2 ^ 32 := h x (by simp)
    simp only [bytes_of_postings, List.map_cons, List.flatten_cons, u32_le_bytes,
      List.cons_append, List.nil_append]
    simp only [u32s_of_bytes]
    rw [show u32s_of_bytes ((xs.map u32_le_bytes).flatten) = xs from
      ih (fun z hz => h z (by simp [hz]))]
    congr 1
    omega

/-- Four bytes per posting. -/
theorem bytes_of_postings_length (p : List Nat) :
    (bytes_of_postings p).length = p.length * 4 := by
  induction p with
  | nil => rfl
  | cons x xs ih =>
    simp only [bytes_of_postings, List.map_cons, List.flatten_cons, List.length_append,
      List.length_cons, u32_le_bytes] at ih ⊢
    simp [ih]
    omega

/-- The write loop, started at any offset, produces dictionary lines whose
slices of the produced byte file are exactly the finalized posting lists:
strictly ascending, of length `df`, with `post_len = df * 4`. -/
theorem write_index_go_spec (entries : List TermEntryW)
    (hb : ∀ e ∈ entries, ∀ x ∈ e.postings, x < 2 ^ 32) :
    ∀ offset, ∀ d ∈ (write_index_go offset entries).1,
      offset ≤ d.post_off ∧ d.post_len = d.df * 4 ∧
      ∃ p, List.Sorted (· < ·) p ∧ p.length = d.df ∧
        read_u32s (write_index_go offset entries).2 (d.post_off - offset) d.post_len = p := by
  induction entries with
  | nil => intro offset d hd; simp [write_index_go] at hd
  | cons e rest ih =>
    have hbe : ∀ x ∈ e.postings, x < 2 ^ 32 := hb e (by simp)
    have hbr : ∀ e' ∈ rest, ∀ x ∈ e'.postings, x < 2 ^ 32 :=
      fun e' he' => hb e' (by simp [he'])
    intro offset d hd
    simp only [write_index_go] at hd ⊢
    rcases List.mem_cons.mp hd with rfl | hd
    · refine ⟨le_refl _, rfl, finalize_postings e.postings,
        finalize_postings_sorted _, rfl, ?_⟩
      simp only [Nat.sub_self]
      unfold read_u32s
      rw [List.drop_zero,
        List.take_left' (by rw [bytes_of_postings_length]),
        u32s_of_bytes_of_postings _
          (fun x hx => hbe x (finalize_postings_subset hx))]
    · obtain ⟨hoff, hlen, p, hsort, hplen, hread⟩ :=
        ih hbr (offset + (finalize_postings e.postings).length * 4) d hd
      refine ⟨by omega, hlen, p, hsort, hplen, ?_⟩
      unfold read_u32s at hread ⊢
      have harith : d.post_off - offset =
          (bytes_of_postings (finalize_postings e.postings)).length +
            (d.post_off - (offset + (finalize_postings e.postings).length * 4)) := by
        rw [bytes_of_postings_length]
        omega
      rw [harith, List.drop_append]
      exact hread

/-- C1: every dictionary entry written by the build's write loop has
`post_len = df * 4`, and reading `post_len` bytes at `post_off` from the
written postings file yields a strictly ascending `u32` array of length
`df`. -/
theorem C1_terms_postings_invariant (entries : List TermEntryW)
    (hb : ∀ e ∈ entries, ∀ x ∈ e.postings, x < 2 ^ 32) :
    ∀ d ∈ (write_index entries).1,
      d.post_len = d.df * 4 ∧
      (read_u32s (write_index entries).2 d.post_off d.post_len).length = d.df ∧
      List.Sorted (· < ·) (read_u32s (write_index entries).2 d.post_off d.post_len) := by
  intro d hd
  obtain ⟨_, hlen, p, hsort, hplen, hread⟩ := write_index_go_spec entries hb 0 d hd
  rw [Nat.sub_zero] at hread
  unfold write_index
  exact ⟨hlen, by rw [hread, hplen], by rw [hread]; exact hsort⟩

/-- C1 witness: the invariant applied to a concrete two-term build (raw
postings unsorted and with a duplicate). -/
theorem C1_witness :
    (∀ e ∈ [TermEntryW.mk [97] [3, 1, 3], TermEntryW.mk [98] [2]],
      ∀ x ∈ e.postings, x < 2 ^ 32) ∧
    (∀ d ∈ (write_index [TermEntryW.mk [97] [3, 1, 3], TermEntryW.mk [98] [2]]).1,
      d.post_len = d.df * 4 ∧
      (read_u32s (write_index [TermEntryW.mk [97] [3, 1, 3], TermEntryW.mk [98] [2]]).2
          d.post_off d.post_len).length = d.df ∧
      List.Sorted (· < ·)
        (read_u32s (write_index [TermEntryW.mk [97] [3, 1, 3], TermEntryW.mk [98] [2]]).2
          d.post_off d.post_len)) :=
  ⟨by decide, C1_terms_postings_invariant _ (by decide)⟩

/-! ## Theorems about per-document token processing -/

/-- Removing one value from a list removes exactly one deduplicated
element when the value occurs. -/
theorem dedup_length_filter_ne (tok : List Nat) (X : List (List Nat)) :
    ((X.filter (fun t => t ≠ tok)).dedup).length + (if tok ∈ X then 1 else 0) =
      X.dedup.length := by
  induction X with
  | nil => simp
  | cons y Y ih =>
    by_cases hy : y = tok
    · subst hy
      have hf : (y :: Y).filter (fun t => t ≠ y) = Y.filter (fun t => t ≠ y) := by
        simp [List.filter_cons]
      rw [hf, if_pos (by simp)]
      by_cases hmem : y ∈ Y
      · rw [List.dedup_cons_of_mem hmem]
        rw [if_pos hmem] at ih
        omega
      · rw [List.dedup_cons_of_not_mem hmem, List.length_cons]
        rw [if_neg hmem] at ih
        omega
    · have hf : (y :: Y).filter (fun t => t ≠ tok) = y :: Y.filter (fun t => t ≠ tok) := by
        simp [List.filter_cons, hy]
      have hmemiff : y ∈ Y.filter (fun t => t ≠ tok) ↔ y ∈ Y := by
        simp [List.mem_filter, hy]
      have htok : (tok ∈ y :: Y) ↔ tok ∈ Y :=
        ⟨fun hc => (List.mem_cons.mp hc).resolve_left (fun e => hy e.symm),
          List.mem_cons_of_mem y⟩
      rw [hf]
      by_cases hmem : y ∈ Y
      · rw [List.dedup_cons_of_mem (hmemiff.mpr hmem), List.dedup_cons_of_mem hmem]
        rw [if_congr htok rfl rfl]
        exact ih
      · rw [List.dedup_cons_of_not_mem (fun hc => hmem (hmemiff.mp hc)),
          List.dedup_cons_of_not_mem hmem]
        simp only [List.length_cons]
        rw [if_congr htok rfl rfl]
        by_cases hty : tok ∈ Y
        · rw [if_pos hty] at ih ⊢; omega
        · rw [if_neg hty] at ih ⊢; omega

/-- A token that is empty or already seen adds no new distinct token. -/
theorem new_distinct_skip {tok : List Nat} (rest : List (List Nat))
    (seen : List (List Nat)) (h : tok = [] ∨ tok ∈ seen) :
    new_distinct (tok :: rest) seen = new_distinct rest seen := by
  unfold new_distinct
  have hp : ¬ (tok ≠ [] ∧ tok ∉ seen) := by tauto
  rw [List.filter_cons, if_neg (by simpa using hp)]

/-- A fresh non-empty token contributes exactly one new distinct token;
the tail is counted against the grown seen set. -/
theorem new_distinct_fresh (tok : List Nat) (rest : List (List Nat))
    (seen : List (List Nat)) (hne : tok ≠ []) (hnin : tok ∉ seen) :
    new_distinct (tok :: rest) seen = new_distinct rest (tok :: seen) + 1 := by
  unfold new_distinct
  have hfc : (tok :: rest).filter (fun t => t ≠ [] ∧ t ∉ seen) =
      tok :: rest.filter (fun t => t ≠ [] ∧ t ∉ seen) := by
    rw [List.filter_cons, if_pos (by simp [hne, hnin])]
  have hff : rest.filter (fun t => t ≠ [] ∧ t ∉ (tok :: seen)) =
      (rest.filter (fun t => t ≠ [] ∧ t ∉ seen)).filter (fun t => t ≠ tok) := by
    rw [List.filter_filter]
    apply List.filter_congr
    intro t _
    by_cases h1 : t = tok <;> by_cases h2 : t = [] <;> by_cases h3 : t ∈ seen <;>
      simp [h1, h2, h3]
  rw [hfc, hff]
  have hkey := dedup_length_filter_ne tok (rest.filter (fun t => t ≠ [] ∧ t ∉ seen))
  by_cases hmem : tok ∈ rest.filter (fun t => t ≠ [] ∧ t ∉ seen)
  · rw [List.dedup_cons_of_mem hmem]
    rw [if_pos hmem] at hkey
    have hpos : 1 ≤ ((rest.filter (fun t => t ≠ [] ∧ t ∉ seen)).dedup).length :=
      List.length_pos.mpr (List.ne_nil_of_mem (List.mem_dedup.mpr hmem))
    omega
  · rw [List.dedup_cons_of_not_mem hmem, List.length_cons]
    rw [if_neg hmem] at hkey
    omega

/-- The per-document processing invariant: as long as the distinct new
tokens fit below the seen-set capacity, the seen set grows by exactly the
distinct non-empty tokens, and each such token receives exactly one
`docid` append. -/
theorem process_doc_spec (toks : List (List Nat)) : ∀ (docid : Nat) (st : BuildDocState),
    st.seen.length + new_distinct toks st.seen ≤ seen_cap →
    ((process_doc docid toks st).seen.length =
        st.seen.length + new_distinct toks st.seen) ∧
    (∀ t, t ∈ (process_doc docid toks st).seen ↔
        t ∈ st.seen ∨ (t ∈ toks ∧ t ≠ [])) ∧
    (∀ t, (process_doc docid toks st).postings t =
        if t ∈ toks ∧ t ≠ [] ∧ t ∉ st.seen
        then st.postings t ++ [docid] else st.postings t) := by
  induction toks with
  | nil =>
    intro docid st _
    refine ⟨by simp [process_doc, new_distinct], fun t => by simp [process_doc],
      fun t => by simp [process_doc]⟩
  | cons tok rest ih =>
    intro docid st h
    have hfold : process_doc docid (tok :: rest) st =
        process_doc docid rest (doc_token_step docid st tok) := by
      simp [process_doc]
    by_cases he : tok = []
    · have hstep : doc_token_step docid st tok = st := by
        simp [doc_token_step, he]
      have hnd := new_distinct_skip rest st.seen (Or.inl he)
      rw [hnd] at h
      obtain ⟨h1, h2, h3⟩ := ih docid st h
      subst he
      rw [hfold, hstep]
      refine ⟨by rw [h1, hnd], ?_, ?_⟩
      · intro t
        rw [h2 t]
        simp only [List.mem_cons]
        constructor
        · rintro (ht | ⟨ht, hn⟩)
          · exact Or.inl ht
          · exact Or.inr ⟨Or.inr ht, hn⟩
        · rintro (ht | ⟨ht | ht, hn⟩)
          · exact Or.inl ht
          · exact absurd ht hn
          · exact Or.inr ⟨ht, hn⟩
      · intro t
        rw [h3 t]
        refine if_congr ?_ rfl rfl
        simp only [List.mem_cons]
        constructor
        · rintro ⟨ht, hn, hs⟩
          exact ⟨Or.inr ht, hn, hs⟩
        · rintro ⟨ht | ht, hn, hs⟩
          · exact absurd ht hn
          · exact ⟨ht, hn, hs⟩
    · by_cases hseen : tok ∈ st.seen
      · have hstep : doc_token_step docid st tok = st := by
          simp [doc_token_step, he, hseen]
        have hnd := new_distinct_skip rest st.seen (Or.inr hseen)
        rw [hnd] at h
        obtain ⟨h1, h2, h3⟩ := ih docid st h
        rw [hfold, hstep]
        refine ⟨by rw [h1, hnd], ?_, ?_⟩
        · intro t
          rw [h2 t]
          simp only [List.mem_cons]
          constructor
          · rintro (ht | ⟨ht, hn⟩)
            · exact Or.inl ht
            · exact Or.inr ⟨Or.inr ht, hn⟩
          · rintro (ht | ⟨ht | ht, hn⟩)
            · exact Or.inl ht
            · subst ht; exact Or.inl hseen
            · exact Or.inr ⟨ht, hn⟩
        · intro t
          rw [h3 t]
          refine if_congr ?_ rfl rfl
          simp only [List.mem_cons]
          constructor
          · rintro ⟨ht, hn, hs⟩
            exact ⟨Or.inr ht, hn, hs⟩
          · rintro ⟨ht | ht, hn, hs⟩
            · subst ht; exact absurd hseen hs
            · exact ⟨ht, hn, hs⟩
      · have hpos := new_distinct_fresh tok rest st.seen he hseen
        have hcap : ¬ (seen_cap ≤ st.seen.length) := by omega
        have hstep : doc_token_step docid st tok =
            ⟨tok :: st.seen,
              fun t => if t = tok then st.postings t ++ [docid] else st.postings t,
              fun t => if t = tok then st.df t + 1 else st.df t⟩ := by
          simp [doc_token_step, he, hseen, hcap]
        rw [hfold, hstep]
        have h' : (tok :: st.seen).length +
            new_distinct rest (tok :: st.seen) ≤ seen_cap := by
          simp only [List.length_cons]
          omega
        obtain ⟨h1, h2, h3⟩ := ih docid
          ⟨tok :: st.seen,
            fun t => if t = tok then st.postings t ++ [docid] else st.postings t,
            fun t => if t = tok then st.df t + 1 else st.df t⟩ h'
        refine ⟨?_, ?_, ?_⟩
        · rw [h1]
          simp only [List.length_cons]
          omega
        · intro t
          rw [h2 t]
          simp only [List.mem_cons]
          constructor
          · rintro ((ht | ht) | ⟨ht, hn⟩)
            · exact Or.inr ⟨Or.inl ht, by rw [ht]; exact he⟩
            · exact Or.inl ht
            · exact Or.inr ⟨Or.inr ht, hn⟩
          · rintro (ht | ⟨ht | ht, hn⟩)
            · exact Or.inl (Or.inr ht)
            · exact Or.inl (Or.inl ht)
            · exact Or.inr ⟨ht, hn⟩
        · intro t
          rw [h3 t]
          by_cases ht : t = tok
          · subst ht
            simp [he, hseen]
          · have hiff : (t ∈ rest ∧ t ≠ [] ∧ t ∉ (tok :: st.seen)) ↔
                (t ∈ tok :: rest ∧ t ≠ [] ∧ t ∉ st.seen) := by
              simp only [List.mem_cons, not_or]
              constructor
              · rintro ⟨hr, hn, _, hs⟩
                exact ⟨Or.inr hr, hn, hs⟩
              · rintro ⟨hr | hr, hn, hs⟩
                · exact absurd hr ht
                · exact ⟨hr, hn, ht, hs⟩
            rw [if_congr hiff rfl rfl]
            simp [ht]

/-- C3 (amended): during a build, for every processed document whose
distinct non-empty tokens number at most the seen-set capacity 32768, and
for every non-empty token of the document, the document's docid is
appended to that token's posting list exactly once. -/
theorem C3_docid_appended_once (docid : Nat) (toks : List (List Nat))
    (post0 : List Nat → List Nat) (df0 : List Nat → Nat)
    (hcap : new_distinct toks [] ≤ seen_cap)
    (tok : List Nat) (htok : tok ∈ toks) (hne : tok ≠ []) :
    (process_doc docid toks ⟨[], post0, df0⟩).postings tok = post0 tok ++ [docid] := by
  obtain ⟨_, _, h3⟩ := process_doc_spec toks docid ⟨[], post0, df0⟩ (by simpa using hcap)
  rw [h3 tok, if_pos ⟨htok, hne, by simp⟩]

/-- C3 witness: a three-token document ("a", "b", "a") appends docid 5 to
the posting list of "a" exactly once. -/
theorem C3_witness :
    new_distinct [[97], [98], [97]] [] ≤ seen_cap ∧
    [97] ∈ [[97], [98], [97]] ∧ ([97] : List Nat) ≠ [] ∧
    (process_doc 5 [[97], [98], [97]]
      ⟨[], fun _ => [], fun _ => 0⟩).postings [97] = [] ++ [5] :=
  ⟨by decide, by decide, by decide,
    C3_docid_appended_once 5 [[97], [98], [97]] (fun _ => []) (fun _ => 0)
      (by decide) [97] (by decide) (by decide)⟩

/-- The two-byte token encoding is injective. -/
theorem cx_tok_inj : Function.Injective cx_tok := by
  intro a b h
  unfold cx_tok at h
  simp only [List.cons.injEq, and_true] at h
  omega

/-- C3 counterexample: a document with 32769 distinct non-empty tokens
loses its last distinct token: the seen set is full, `seen_insert` returns
false, and the docid is never appended to that term's posting list. -/
theorem C3_counterexample :
    cx_tok seen_cap ∈ (List.range (seen_cap + 1)).map cx_tok ∧
    cx_tok seen_cap ≠ [] ∧
    (process_doc 7 ((List.range (seen_cap + 1)).map cx_tok)
      ⟨[], fun _ => [], fun _ => 0⟩).postings (cx_tok seen_cap) = [] := by
  refine ⟨List.mem_map.mpr ⟨seen_cap, List.mem_range.mpr (by omega), rfl⟩,
    by simp [cx_tok], ?_⟩
  have hsplit : (List.range (seen_cap + 1)).map cx_tok =
      (List.range seen_cap).map cx_tok ++ [cx_tok seen_cap] := by
    rw [List.range_succ, List.map_append, List.map_cons, List.map_nil]
  have hnodup : ((List.range seen_cap).map cx_tok).Nodup :=
    (List.nodup_range seen_cap).map cx_tok_inj
  have hne : ∀ t ∈ (List.range seen_cap).map cx_tok, t ≠ [] := by
    intro t ht
    obtain ⟨j, _, rfl⟩ := List.mem_map.mp ht
    simp [cx_tok]
  have hnd : new_distinct ((List.range seen_cap).map cx_tok) [] = seen_cap := by
    unfold new_distinct
    rw [List.filter_eq_self.mpr (by
      intro t ht
      simp [hne t ht])]
    rw [List.dedup_eq_self.mpr hnodup]
    simp
  have hseen0 : (BuildDocState.mk [] (fun _ => []) (fun _ => 0)).seen =
      ([] : List (List Nat)) := rfl
  have hhcap : (BuildDocState.mk [] (fun _ => []) (fun _ => 0)).seen.length +
      new_distinct ((List.range seen_cap).map cx_tok)
        (BuildDocState.mk [] (fun _ => []) (fun _ => 0)).seen ≤ seen_cap := by
    rw [hseen0, hnd]
    simp only [List.length_nil]
    omega
  obtain ⟨h1, h2, h3⟩ := process_doc_spec ((List.range seen_cap).map cx_tok) 7
    ⟨[], fun _ => [], fun _ => 0⟩ hhcap
  rw [hseen0] at h1 h2 h3
  rw [hnd] at h1
  have hlast_nin : cx_tok seen_cap ∉
      (process_doc 7 ((List.range seen_cap).map cx_tok)
        ⟨[], fun _ => [], fun _ => 0⟩).seen := by
    intro hc
    rcases (h2 _).mp hc with hc' | ⟨hc', _⟩
    · simp at hc'
    · obtain ⟨j, hj, hej⟩ := List.mem_map.mp hc'
      have := cx_tok_inj hej
      rw [List.mem_range] at hj
      omega
  have hlen : (process_doc 7 ((List.range seen_cap).map cx_tok)
      ⟨[], fun _ => [], fun _ => 0⟩).seen.length = seen_cap := by
    rw [h1]
    simp
  have happ : ∀ (d : Nat) (l1 l2 : List (List Nat)) st,
      process_doc d (l1 ++ l2) st = process_doc d l2 (process_doc d l1 st) := by
    intro d l1 l2 st
    simp [process_doc]
  have hone : ∀ (d : Nat) (x : List Nat) st,
      process_doc d [x] st = doc_token_step d st x := by
    intro d x st
    simp [process_doc]
  rw [hsplit, happ, hone]
  rw [show doc_token_step 7
      (process_doc 7 ((List.range seen_cap).map cx_tok)
        ⟨[], fun _ => [], fun _ => 0⟩) (cx_tok seen_cap) =
    process_doc 7 ((List.range seen_cap).map cx_tok)
      ⟨[], fun _ => [], fun _ => 0⟩ from by
    unfold doc_token_step
    rw [if_neg (by simp [cx_tok]), if_neg hlast_nin, if_pos (by rw [hlen])]]
  rw [h3, if_neg ?hcond]
  case hcond =>
    rintro ⟨hc, -, -⟩
    obtain ⟨j, hj, hej⟩ := List.mem_map.mp hc
    have := cx_tok_inj hej
    rw [List.mem_range] at hj
    omega

/-! ## Theorems about the query engine -/

/-- Unfolding equations of `op_and`. -/
theorem op_and_eq_cons {a b : Nat} (ta tb : List Nat) (h : a = b) :
    op_and (a :: ta) (b :: tb) = a :: op_and ta tb := by
  simp only [op_and, if_pos h]

/-- `op_and` advances its left pointer when its head is smaller. -/
theorem op_and_eq_lt {a b : Nat} (ta tb : List Nat) (h1 : ¬ a = b) (h2 : a < b) :
    op_and (a :: ta) (b :: tb) = op_and ta (b :: tb) := by
  simp only [op_and]
  rw [if_neg h1, if_pos h2]

/-- `op_and` advances its right pointer when its head is larger. -/
theorem op_and_eq_gt {a b : Nat} (ta tb : List Nat) (h1 : ¬ a = b) (h2 : ¬ a < b) :
    op_and (a :: ta) (b :: tb) = op_and (a :: ta) tb := by
  simp only [op_and]
  rw [if_neg h1, if_neg h2]

/-- The merge-intersection is a sublist of its left operand. -/
theorem op_and_sublist (la lb : List Nat) : List.Sublist (op_and la lb) la := by
  induction la, lb using op_and.induct with
  | case1 lb => simp [op_and]
  | case2 la h =>
    match la, h with
    | a :: ta, _ =>
      show List.Sublist (op_and (a :: ta) []) (a :: ta)
      simp only [op_and]
      exact List.nil_sublist _
  | case3 ta b tb ih =>
    rw [op_and_eq_cons ta tb rfl]
    exact ih.cons₂ b
  | case4 a ta b tb h1 h2 ih =>
    rw [op_and_eq_lt ta tb h1 h2]
    exact ih.cons a
  | case5 a ta b tb h1 h2 ih =>
    rw [op_and_eq_gt ta tb h1 h2]
    exact ih

/-- Membership in the merge-intersection of strictly sorted lists. -/
theorem op_and_mem (la lb : List Nat) :
    List.Sorted (· < ·) la → List.Sorted (· < ·) lb →
    ∀ x, (x ∈ op_and la lb ↔ x ∈ la ∧ x ∈ lb) := by
  induction la, lb using op_and.induct with
  | case1 lb => intro _ _ x; simp [op_and]
  | case2 la h =>
    match la, h with
    | a :: ta, _ =>
      intro _ _ x
      show x ∈ op_and (a :: ta) [] ↔ _
      simp only [op_and]
      simp
  | case3 ta b tb ih =>
    intro ha hb x
    obtain ⟨ha1, ha2⟩ := List.sorted_cons.mp ha
    obtain ⟨hb1, hb2⟩ := List.sorted_cons.mp hb
    rw [op_and_eq_cons ta tb rfl]
    rw [List.mem_cons, ih ha2 hb2 x, List.mem_cons, List.mem_cons]
    constructor
    · rintro (rfl | ⟨h1, h2⟩)
      · exact ⟨Or.inl rfl, Or.inl rfl⟩
      · exact ⟨Or.inr h1, Or.inr h2⟩
    · rintro ⟨h1 | h1, h2 | h2⟩
      · exact Or.inl h1
      · exact Or.inl h1
      · exact Or.inl h2
      · exact Or.inr ⟨h1, h2⟩
  | case4 a ta b tb h1 h2 ih =>
    intro ha hb x
    obtain ⟨ha1, ha2⟩ := List.sorted_cons.mp ha
    obtain ⟨hb1, hb2⟩ := List.sorted_cons.mp hb
    rw [op_and_eq_lt ta tb h1 h2]
    rw [ih ha2 hb x]
    simp only [List.mem_cons]
    constructor
    · rintro ⟨hx1, hx2⟩
      exact ⟨Or.inr hx1, hx2⟩
    · rintro ⟨hx1 | hx1, hx2 | hx2⟩
      · subst hx1
        exact absurd hx2 h1
      · have := hb1 x hx2
        omega
      · exact ⟨hx1, Or.inl hx2⟩
      · exact ⟨hx1, Or.inr hx2⟩
  | case5 a ta b tb h1 h2 ih =>
    intro ha hb x
    obtain ⟨ha1, ha2⟩ := List.sorted_cons.mp ha
    obtain ⟨hb1, hb2⟩ := List.sorted_cons.mp hb
    rw [op_and_eq_gt ta tb h1 h2]
    rw [ih ha hb2 x]
    simp only [List.mem_cons]
    constructor
    · rintro ⟨hx1, hx2⟩
      exact ⟨hx1, Or.inr hx2⟩
    · rintro ⟨hx1 | hx1, hx2 | hx2⟩
      · subst hx1
        exact absurd hx2 h1
      · exact ⟨Or.inl hx1, hx2⟩
      · have := ha1 x hx1
        omega
      · exact ⟨Or.inr hx1, hx2⟩

/-- Unfolding equations of `op_or`. -/
theorem op_or_eq_cons {a b : Nat} (ta tb : List Nat) (h : a = b) :
    op_or (a :: ta) (b :: tb) = a :: op_or ta tb := by
  simp only [op_or, if_pos h]

/-- `op_or` emits its smaller left head. -/
theorem op_or_eq_lt {a b : Nat} (ta tb : List Nat) (h1 : ¬ a = b) (h2 : a < b) :
    op_or (a :: ta) (b :: tb) = a :: op_or ta (b :: tb) := by
  simp only [op_or]
  rw [if_neg h1, if_pos h2]

/-- `op_or` emits its smaller right head. -/
theorem op_or_eq_gt {a b : Nat} (ta tb : List Nat) (h1 : ¬ a = b) (h2 : ¬ a < b) :
    op_or (a :: ta) (b :: tb) = b :: op_or (a :: ta) tb := by
  simp only [op_or]
  rw [if_neg h1, if_neg h2]

/-- The merge-union of strictly sorted lists is strictly sorted, with
membership the union of memberships. -/
theorem op_or_spec (la lb : List Nat) :
    List.Sorted (· < ·) la → List.Sorted (· < ·) lb →
    List.Sorted (· < ·) (op_or la lb) ∧
      (∀ x, x ∈ op_or la lb ↔ x ∈ la ∨ x ∈ lb) := by
  induction la, lb using op_or.induct with
  | case1 lb =>
    intro _ hb
    refine ⟨by simpa [op_or] using hb, fun x => by simp [op_or]⟩
  | case2 la h =>
    match la, h with
    | a :: ta, _ =>
      intro ha _
      refine ⟨?_, fun x => ?_⟩
      · show List.Sorted (· < ·) (op_or (a :: ta) [])
        simpa only [op_or] using ha
      · show x ∈ op_or (a :: ta) [] ↔ _
        simp only [op_or]
        simp
  | case3 ta b tb ih =>
    intro ha hb
    obtain ⟨ha1, ha2⟩ := List.sorted_cons.mp ha
    obtain ⟨hb1, hb2⟩ := List.sorted_cons.mp hb
    obtain ⟨ihs, ihm⟩ := ih ha2 hb2
    rw [op_or_eq_cons ta tb rfl]
    constructor
    · refine List.sorted_cons.mpr ⟨?_, ihs⟩
      intro y hy
      rcases (ihm y).mp hy with h | h
      · exact ha1 y h
      · exact hb1 y h
    · intro x
      simp only [List.mem_cons, ihm x]
      tauto
  | case4 a ta b tb h1 h2 ih =>
    intro ha hb
    obtain ⟨ha1, ha2⟩ := List.sorted_cons.mp ha
    obtain ⟨ihs, ihm⟩ := ih ha2 hb
    rw [op_or_eq_lt ta tb h1 h2]
    constructor
    · refine List.sorted_cons.mpr ⟨?_, ihs⟩
      intro y hy
      rcases (ihm y).mp hy with h | h
      · exact ha1 y h
      · rcases List.mem_cons.mp h with rfl | h
        · exact h2
        · exact lt_trans h2 ((List.sorted_cons.mp hb).1 y h)
    · intro x
      simp only [List.mem_cons, ihm x]
      tauto
  | case5 a ta b tb h1 h2 ih =>
    intro ha hb
    obtain ⟨hb1, hb2⟩ := List.sorted_cons.mp hb
    obtain ⟨ihs, ihm⟩ := ih ha hb2
    rw [op_or_eq_gt ta tb h1 h2]
    have hba : b < a := by omega
    constructor
    · refine List.sorted_cons.mpr ⟨?_, ihs⟩
      intro y hy
      rcases (ihm y).mp hy with h | h
      · rcases List.mem_cons.mp h with rfl | h
        · exact hba
        · exact lt_trans hba ((List.sorted_cons.mp ha).1 y h)
      · exact hb1 y h
    · intro x
      simp only [List.mem_cons, ihm x]
      tauto

/-- The two-pointer difference is a sublist of the universe. -/
theorem op_not_sublist (U : List Nat) : ∀ lb, List.Sublist (op_not U lb) U := by
  induction U with
  | nil => intro lb; simp [op_not]
  | cons u us ih =>
    intro lb
    simp only [op_not]
    split
    · exact (ih _).cons u
    · exact (ih _).cons₂ u

/-- Membership in the two-pointer difference of strictly sorted lists. -/
theorem op_not_mem (U : List Nat) : ∀ lb, List.Sorted (· < ·) U →
    List.Sorted (· < ·) lb →
    ∀ x, (x ∈ op_not U lb ↔ x ∈ U ∧ x ∉ lb) := by
  induction U with
  | nil => intro lb _ _ x; simp [op_not]
  | cons u us ih =>
    intro lb hU hlb x
    obtain ⟨hu1, hu2⟩ := List.sorted_cons.mp hU
    have hsub : List.Sublist (lb.dropWhile (fun b => b < u)) lb :=
      List.dropWhile_sublist _
    have hlb' : List.Sorted (· < ·) (lb.dropWhile (fun b => b < u)) :=
      List.Pairwise.sublist hsub hlb
    have htrans : ∀ y, ¬ (y < u) →
        (y ∈ lb ↔ y ∈ lb.dropWhile (fun b => b < u)) := by
      intro y hy
      constructor
      · intro hmem
        have hmem2 : y ∈ lb.takeWhile (fun b => b < u) ++
            lb.dropWhile (fun b => b < u) := by
          rwa [List.takeWhile_append_dropWhile]
        rcases List.mem_append.mp hmem2 with h | h
        · exact absurd (by simpa using List.mem_takeWhile_imp h) hy
        · exact h
      · exact fun h => hsub.subset h
    have hhead : (lb.dropWhile (fun b => b < u)).head? = some u ↔ u ∈ lb := by
      constructor
      · intro h
        refine (htrans u (lt_irrefl u)).mpr (List.mem_of_mem_head? ?_)
        rw [h]
        rfl
      · intro hmem
        have h1 : u ∈ lb.dropWhile (fun b => b < u) :=
          (htrans u (lt_irrefl u)).mp hmem
        match hd : lb.dropWhile (fun b => b < u) with
        | [] => rw [hd] at h1; cases h1
        | c :: t =>
          rw [hd] at h1 hlb'
          have hc := List.head?_dropWhile_not (fun b => decide (b < u)) lb
          rw [hd] at hc
          simp only [List.head?_cons, decide_eq_false_iff_not] at hc
          rcases List.mem_cons.mp h1 with rfl | h2
          · simp
          · have := (List.sorted_cons.mp hlb').1 u h2
            omega
    by_cases hcase : (lb.dropWhile (fun b => b < u)).head? = some u
    · simp only [op_not, if_pos hcase]
      rw [ih _ hu2 hlb' x]
      have huin : u ∈ lb := hhead.mp hcase
      constructor
      · rintro ⟨hx, hnx⟩
        refine ⟨List.mem_cons_of_mem _ hx, fun hc => ?_⟩
        exact hnx ((htrans x (by have := hu1 x hx; omega)).mp hc)
      · rintro ⟨hx, hnx⟩
        rcases List.mem_cons.mp hx with rfl | hx
        · exact absurd huin hnx
        · exact ⟨hx, fun hc => hnx ((htrans x (by have := hu1 x hx; omega)).mpr hc)⟩
    · simp only [op_not, if_neg hcase]
      rw [List.mem_cons, ih _ hu2 hlb' x]
      have hunin : u ∉ lb := fun hc => hcase (hhead.mpr hc)
      constructor
      · rintro (rfl | ⟨hx, hnx⟩)
        · exact ⟨List.mem_cons_self _ _, hunin⟩
        · exact ⟨List.mem_cons_of_mem _ hx,
            fun hc => hnx ((htrans x (by have := hu1 x hx; omega)).mp hc)⟩
      · rintro ⟨hx, hnx⟩
        rcases List.mem_cons.mp hx with rfl | hx
        · exact Or.inl rfl
        · exact Or.inr ⟨hx,
            fun hc => hnx ((htrans x (by have := hu1 x hx; omega)).mpr hc)⟩

/-- Every evaluation result is strictly sorted and drawn from the
universe, provided the universe is sorted-unique and every posting list
is strictly sorted and inside the universe. -/
theorem eval_sorted_subset (load : List Nat → List Nat) (U : List Nat)
    (hU : List.Sorted (· < ·) U)
    (hload : ∀ t, List.Sorted (· < ·) (load t) ∧ ∀ x ∈ load t, x ∈ U) :
    ∀ q, List.Sorted (· < ·) (eval load U q) ∧ ∀ x ∈ eval load U q, x ∈ U := by
  intro q
  induction q with
  | term t => exact hload (lowercase_inplace t)
  | and a b iha ihb =>
    refine ⟨List.Pairwise.sublist (op_and_sublist _ _) iha.1, ?_⟩
    intro x hx
    exact iha.2 x ((op_and_sublist _ _).subset hx)
  | or a b iha ihb =>
    obtain ⟨hs, hm⟩ := op_or_spec _ _ iha.1 ihb.1
    refine ⟨hs, fun x hx => ?_⟩
    rcases (hm x).mp hx with h | h
    · exact iha.2 x h
    · exact ihb.2 x h
  | not a iha =>
    refine ⟨List.Pairwise.sublist (op_not_sublist _ _) hU, ?_⟩
    intro x hx
    exact (op_not_sublist _ _).subset hx

/-- Strictly sorted lists of naturals with the same members are equal. -/
theorem sorted_lt_eq_of_mem_iff {l1 l2 : List Nat}
    (h1 : List.Sorted (· < ·) l1) (h2 : List.Sorted (· < ·) l2)
    (hm : ∀ x, x ∈ l1 ↔ x ∈ l2) : l1 = l2 := by
  haveI : IsAntisymm Nat (· < ·) := ⟨fun a b hab hba => absurd (lt_trans hab hba) (lt_irrefl a)⟩
  exact List.eq_of_perm_of_sorted
    ((List.perm_ext_iff_of_nodup h1.nodup h2.nodup).mpr hm) h1 h2

/-- C2: over any index whose posting lists are strictly ascending subsets
of the sorted-unique universe, every query satisfies
`eval (Q OR NOT Q) = universe` and `eval (Q AND NOT Q) = []`. -/
theorem C2_not_partition (load : List Nat → List Nat) (U : List Nat) (q : QueryNode)
    (hU : List.Sorted (· < ·) U)
    (hload : ∀ t, List.Sorted (· < ·) (load t) ∧ ∀ x ∈ load t, x ∈ U) :
    eval load U (QueryNode.or q (QueryNode.not q)) = U ∧
    eval load U (QueryNode.and q (QueryNode.not q)) = [] := by
  obtain ⟨hA, hAU⟩ := eval_sorted_subset load U hU hload q
  have hN_sorted : List.Sorted (· < ·) (op_not U (eval load U q)) :=
    List.Pairwise.sublist (op_not_sublist _ _) hU
  have hN_mem := op_not_mem U (eval load U q) hU hA
  constructor
  · show op_or (eval load U q) (op_not U (eval load U q)) = U
    obtain ⟨hs, hm⟩ := op_or_spec _ _ hA hN_sorted
    refine sorted_lt_eq_of_mem_iff hs hU ?_
    intro x
    rw [hm x, hN_mem x]
    constructor
    · rintro (h | ⟨h, _⟩)
      · exact hAU x h
      · exact h
    · intro h
      by_cases hx : x ∈ eval load U q
      · exact Or.inl hx
      · exact Or.inr ⟨h, hx⟩
  · show op_and (eval load U q) (op_not U (eval load U q)) = []
    rw [List.eq_nil_iff_forall_not_mem]
    intro x hx
    obtain ⟨h1, h2⟩ := (op_and_mem _ _ hA hN_sorted x).mp hx
    exact ((hN_mem x).mp h2).2 h1

/-- C2 witness: the partition law on a concrete index and query. -/
theorem C2_witness :
    List.Sorted (· < ·) [1, 2, 5, 9] ∧
    (∀ t, List.Sorted (· < ·)
        ((fun t => if t = [97] then [2, 5] else []) t) ∧
      ∀ x ∈ (fun t => if t = [97] then [2, 5] else []) t, x ∈ [1, 2, 5, 9]) ∧
    (eval (fun t => if t = [97] then [2, 5] else []) [1, 2, 5, 9]
        (QueryNode.or (QueryNode.term [97]) (QueryNode.not (QueryNode.term [97]))) =
      [1, 2, 5, 9] ∧
    eval (fun t => if t = [97] then [2, 5] else []) [1, 2, 5, 9]
        (QueryNode.and (QueryNode.term [97]) (QueryNode.not (QueryNode.term [97]))) =
      []) :=
  ⟨by decide,
    fun t => by
      dsimp only
      split
      · exact ⟨by decide, by decide⟩
      · exact ⟨by decide, by decide⟩,
    C2_not_partition (fun t => if t = [97] then [2, 5] else []) [1, 2, 5, 9]
      (QueryNode.term [97]) (by decide)
      (fun t => by
        dsimp only
        split
        · exact ⟨by decide, by decide⟩
        · exact ⟨by decide, by decide⟩)⟩


/-! ## Theorems for claim C7 -/

/-- Unfolding equation of the codepoint tokenizer at end of input. -/
theorem tokenize_cp_go_none {s tok : List Nat} (h : decode_utf8_next s = none) :
    tokenize_cp_go s tok = if tok = [] then [] else [tok] := by
  rw [tokenize_cp_go]
  split
  · rfl
  · rename_i cp k heq
    rw [h] at heq
    cases heq

/-- Unfolding equation of the codepoint tokenizer on a decoded head. -/
theorem tokenize_cp_go_some {s tok : List Nat} {cp k : Nat}
    (h : decode_utf8_next s = some (cp, k)) :
    tokenize_cp_go s tok =
      (if is_alnum cp then
        tokenize_cp_go (s.drop k) (tok ++ append_utf8 (to_lower_cp cp))
      else if is_hyphen cp ∧ tok ≠ [] ∧ peek_alnum (decode_utf8_next (s.drop k)) = true then
        tokenize_cp_go (s.drop k) (tok ++ append_utf8 cp)
      else if cp = 43 ∧ tok ≠ [] ∧ peek_alnum (decode_utf8_next (s.drop k)) = true then
        tokenize_cp_go (s.drop k) (tok ++ append_utf8 cp)
      else if cp = 46 ∧ last_digit tok = true ∧ peek_digit (decode_utf8_next (s.drop k)) = true then
        tokenize_cp_go (s.drop k) (tok ++ append_utf8 cp)
      else if is_apostrophe cp ∧ tok ≠ [] ∧ peek_letter (decode_utf8_next (s.drop k)) = true then
        tokenize_cp_go (s.drop k) (tok ++ append_utf8 cp)
      else (if tok = [] then [] else [tok]) ++ tokenize_cp_go (s.drop k) []) := by
  rw [tokenize_cp_go]
  split
  · rename_i heq
    rw [h] at heq
    cases heq
  · rename_i cp' k' heq
    rw [h] at heq
    obtain ⟨rfl, rfl⟩ : cp' = cp ∧ k' = k := by
      simpa [Prod.mk.injEq] using heq.symm
    rfl

/-- ASCII facts shared by the two tokenizers, one decidable bundle. -/
theorem ascii_facts : ∀ b, b < 0x80 →
    to_lower_cp b = lower_ascii_byte b ∧
    to_lower_cp b < 0x80 ∧
    (is_alnum b ↔ is_ascii_alnum b = true) ∧
    (is_hyphen b ↔ b = 45) ∧
    (is_apostrophe b ↔ b = 39) ∧
    (is_ascii_digit (to_lower_cp b) ↔ is_ascii_digit b) ∧
    (is_letter b ↔ (is_ascii_alnum b = true ∧ ¬ is_ascii_digit b)) := by
  decide

/-- A Cyrillic letter codepoint is below 0x452. -/
theorem cyr_lt {cp : Nat} (h : is_cyr_lower cp ∨ is_cyr_upper cp) : cp < 0x452 := by
  rcases h with h | h <;> rcases h with h | h <;> omega

set_option maxRecDepth 40000 in
/-- Facts about the two-byte encoding of each Cyrillic letter, one
decidable bundle: shape of append_utf8, byte ranges, decode roundtrip,
window shape for the byte-level tokenizer, lowercase behaviour, and the
character classes of the codepoint. -/
theorem cyr_facts_all : ∀ cp, cp < 0x452 →
    ¬ (is_cyr_lower cp ∨ is_cyr_upper cp) ∨
    (append_utf8 cp = [enc0 cp, enc1 cp] ∧
    ¬ enc0 cp < 0x80 ∧
    enc0 cp &&& 0xE0 = 0xC0 ∧
    enc1 cp &&& 0xC0 = 0x80 ∧
    ((enc0 cp &&& 0x1F) <<< 6 ||| (enc1 cp &&& 0x3F)) = cp ∧
    (enc0 cp = 0xD0 ∨ enc0 cp = 0xD1) ∧
    (0x80 ≤ enc1 cp ∧ enc1 cp ≤ 0xBF) ∧
    ((is_cyr_lower (to_lower_cp cp) ∨ is_cyr_upper (to_lower_cp cp)) ∧ to_lower_cp cp < 0x452) ∧
    cyr_step2 (enc0 cp) (enc1 cp) = (enc0 (to_lower_cp cp), enc1 (to_lower_cp cp)) ∧
    is_letter cp ∧ ¬ is_ascii_digit cp ∧ ¬ is_hyphen cp ∧ ¬ is_apostrophe cp ∧
    cp ≠ 43 ∧ cp ≠ 46) := by
  decide

/-- The Cyrillic facts bundle, extracted for a Cyrillic letter. -/
theorem cyr_facts {cp : Nat} (h : is_cyr_lower cp ∨ is_cyr_upper cp) :
    append_utf8 cp = [enc0 cp, enc1 cp] ∧
    ¬ enc0 cp < 0x80 ∧
    enc0 cp &&& 0xE0 = 0xC0 ∧
    enc1 cp &&& 0xC0 = 0x80 ∧
    ((enc0 cp &&& 0x1F) <<< 6 ||| (enc1 cp &&& 0x3F)) = cp ∧
    (enc0 cp = 0xD0 ∨ enc0 cp = 0xD1) ∧
    (0x80 ≤ enc1 cp ∧ enc1 cp ≤ 0xBF) ∧
    ((is_cyr_lower (to_lower_cp cp) ∨ is_cyr_upper (to_lower_cp cp)) ∧ to_lower_cp cp < 0x452) ∧
    cyr_step2 (enc0 cp) (enc1 cp) = (enc0 (to_lower_cp cp), enc1 (to_lower_cp cp)) ∧
    is_letter cp ∧ ¬ is_ascii_digit cp ∧ ¬ is_hyphen cp ∧ ¬ is_apostrophe cp ∧
    cp ≠ 43 ∧ cp ≠ 46 :=
  (cyr_facts_all cp (cyr_lt h)).resolve_left (not_not_intro h)

/-- Decoding at an ASCII byte. -/
theorem decode_cons_ascii {b : Nat} (hb : b < 0x80) (rest : List Nat) :
    decode_utf8_next (b :: rest) = some (b, 1) := by
  simp [decode_utf8_next, hb]

/-- Decoding at a well-formed two-byte sequence. -/
theorem decode_cons_two {c0 c1 : Nat} (rest : List Nat) (h0 : ¬ c0 < 0x80)
    (hA : c0 &&& 0xE0 = 0xC0) (h1 : c1 &&& 0xC0 = 0x80) :
    decode_utf8_next (c0 :: c1 :: rest) = some ((c0 &&& 0x1F) <<< 6 ||| (c1 &&& 0x3F), 2) := by
  simp [decode_utf8_next, h0, hA, h1]

/-- A well-formed symbol at the head of the byte stream decodes to its
codepoint, consuming exactly its encoding. -/
theorem decode_symEnc {s : TSym} (h : symOK s) (rest : List Nat) :
    decode_utf8_next (symEnc s ++ rest) = some (symVal s, (symEnc s).length) := by
  cases s with
  | asc b =>
    simpa [symEnc, symVal] using decode_cons_ascii h rest
  | cyr cp =>
    obtain ⟨F1, F2, F3, F4, F5, -⟩ := cyr_facts h
    simp only [symEnc, symVal, F1, List.cons_append, List.nil_append, List.length_cons,
      List.length_nil]
    rw [decode_cons_two rest F2 F3 F4, F5]

/-- The encoding of a symbol is never empty. -/
theorem symEnc_ne_nil (s : TSym) : symEnc s ≠ [] := by
  cases s with
  | asc b => simp [symEnc]
  | cyr cp =>
    simp only [symEnc, append_utf8]
    repeat' split
    all_goals simp

/-- Well-formedness is preserved by symbol lowering. -/
theorem symOK_symLower {s : TSym} (h : symOK s) : symOK (symLower s) := by
  cases s with
  | asc b => exact (ascii_facts _ h).2.1
  | cyr cp => exact (cyr_facts h).2.2.2.2.2.2.2.1.1

/-- encLine distributes over cons. -/
theorem encLine_cons (s : TSym) (l : List TSym) :
    encLine (s :: l) = symEnc s ++ encLine l := by
  simp [encLine]

/-- encLine distributes over append. -/
theorem encLine_append (a b : List TSym) :
    encLine (a ++ b) = encLine a ++ encLine b := by
  simp [encLine]

/-- An encoded line is empty iff the symbol line is empty. -/
theorem encLine_eq_nil_iff (l : List TSym) : encLine l = [] ↔ l = [] := by
  cases l with
  | nil => simp [encLine]
  | cons s r =>
    simp only [encLine_cons, List.append_eq_nil]
    simpa using fun h => absurd h (symEnc_ne_nil s)

/-- Dropping the head symbol encoding from an encoded line. -/
theorem drop_symEnc (s : TSym) (rest : List Nat) :
    (symEnc s ++ rest).drop (symEnc s).length = rest :=
  List.drop_left _ _

/-- The decimal-point look-back agrees between the encoded pending bytes
and the symbol-level pending list. -/
theorem last_digit_encLine : ∀ pend : List TSym, (∀ s ∈ pend, symOK s) →
    (last_digit (encLine pend) = true ↔ pend_last_digit pend)
  | [], _ => by simp [encLine, last_digit, pend_last_digit]
  | [s], hOK => by
    cases s with
    | asc b =>
      simp [encLine, symEnc, last_digit, pend_last_digit, decide_eq_true_iff]
    | cyr cp =>
      have hs : is_cyr_lower cp ∨ is_cyr_upper cp := hOK (TSym.cyr cp) (by simp)
      obtain ⟨F1, -, -, -, -, -, F7, -⟩ := cyr_facts hs
      simp only [encLine, List.map_cons, List.map_nil, List.flatten, List.append_nil,
        symEnc, F1, last_digit, pend_last_digit]
      simp only [List.getLast?_cons_cons]
      simp only [show ([enc1 cp] : List Nat).getLast? = some (enc1 cp) from rfl]
      have : ¬ is_ascii_digit (enc1 cp) := by
        simp only [is_ascii_digit]
        omega
      simp [this]
  | s :: s2 :: r2, hOK => by
    have hr : encLine (s2 :: r2) ≠ [] := by
      rw [Ne, encLine_eq_nil_iff]
      simp
    rw [encLine_cons, pend_last_digit, List.getLast?_cons_cons]
    unfold last_digit
    rw [List.getLast?_append_of_ne_nil _ hr]
    exact last_digit_encLine (s2 :: r2) (fun t ht => hOK t (List.mem_cons_of_mem _ ht))

/-- Symbol-level lowering does not change whether the last pending symbol
is an ASCII digit. -/
theorem pend_last_digit_symLower (pend : List TSym) (hOK : ∀ s ∈ pend, symOK s) :
    pend_last_digit (pend.map symLower) ↔ pend_last_digit pend := by
  unfold pend_last_digit
  rw [List.getLast?_map]
  cases hq : pend.getLast? with
  | none => simp
  | some s =>
    have hs : symOK s := hOK s (List.mem_of_mem_getLast? hq)
    cases s with
    | asc b =>
      simpa [symLower] using (ascii_facts b hs).2.2.2.2.2.1
    | cyr cp => simp [symLower]

/-- The byte-level probe of a token start agrees with the codepoint-level
alnum peek, on encoded well-formed symbol lines. -/
theorem peek_alnum_tok_start (rest : List TSym) (h : ∀ s ∈ rest, symOK s) :
    peek_alnum (decode_utf8_next (encLine rest)) = is_tok_start (encLine rest) := by
  cases rest with
  | nil => rfl
  | cons s r =>
    have hs : symOK s := h s (List.mem_cons_self s r)
    rw [encLine_cons, decode_symEnc hs]
    cases s with
    | asc b =>
      have hb : b < 0x80 := hs
      have hcyr : is_cyr2_start (b :: encLine r) = false := by
        cases hr : encLine r with
        | nil => rfl
        | cons c cs =>
          simp only [is_cyr2_start, decide_eq_false_iff_not]
          omega
      simp only [symEnc, symVal, List.cons_append, List.nil_append, peek_alnum,
        is_tok_start, hcyr, Bool.or_false]
      rcases h3 : is_ascii_alnum b with - | -
      · simp only [decide_eq_false_iff_not]
        intro hal
        rw [((ascii_facts b hb).2.2.1.mp hal)] at h3
        cases h3
      · simp only [decide_eq_true_iff]
        exact (ascii_facts b hb).2.2.1.mpr h3
    | cyr cp =>
      have hc : is_cyr_lower cp ∨ is_cyr_upper cp := hs
      obtain ⟨F1, -, -, -, -, F6, F7, -, -, FL, -⟩ := cyr_facts hc
      have ha0 : is_ascii_alnum (enc0 cp) = false := by
        simp only [is_ascii_alnum, decide_eq_false_iff_not, is_ascii_alpha, is_ascii_digit]
        rcases F6 with h6 | h6 <;> rw [h6] <;> omega
      have hc2 : is_cyr2_start (enc0 cp :: enc1 cp :: encLine r) = true := by
        simp only [is_cyr2_start, decide_eq_true_iff]
        exact ⟨F6, F7⟩
      simp only [symEnc, symVal, F1, List.cons_append, List.nil_append, peek_alnum,
        is_tok_start, ha0, hc2, Bool.false_or, decide_eq_true_iff]
      exact Or.inl FL

/-- The byte-level probe of a token start agrees with the codepoint-level
letter peek, provided the next symbol is not an ASCII digit. -/
theorem peek_letter_tok_start (rest : List TSym) (h : ∀ s ∈ rest, symOK s)
    (hnd : ∀ d, rest.head? = some (TSym.asc d) → ¬ is_ascii_digit d) :
    peek_letter (decode_utf8_next (encLine rest)) = is_tok_start (encLine rest) := by
  cases rest with
  | nil => rfl
  | cons s r =>
    have hs : symOK s := h s (List.mem_cons_self s r)
    rw [encLine_cons, decode_symEnc hs]
    cases s with
    | asc b =>
      have hb : b < 0x80 := hs
      have hd : ¬ is_ascii_digit b := hnd b rfl
      have hcyr : is_cyr2_start (b :: encLine r) = false := by
        cases hr : encLine r with
        | nil => rfl
        | cons c cs =>
          simp only [is_cyr2_start, decide_eq_false_iff_not]
          omega
      simp only [symEnc, symVal, List.cons_append, List.nil_append, peek_letter,
        is_tok_start, hcyr, Bool.or_false]
      rcases h3 : is_ascii_alnum b with - | -
      · simp only [decide_eq_false_iff_not]
        intro hal
        rw [((ascii_facts b hb).2.2.2.2.2.2.mp hal).1] at h3
        cases h3
      · simp only [decide_eq_true_iff]
        exact (ascii_facts b hb).2.2.2.2.2.2.mpr ⟨h3, hd⟩
    | cyr cp =>
      have hc : is_cyr_lower cp ∨ is_cyr_upper cp := hs
      obtain ⟨F1, -, -, -, -, F6, F7, -, -, FL, -⟩ := cyr_facts hc
      have ha0 : is_ascii_alnum (enc0 cp) = false := by
        simp only [is_ascii_alnum, decide_eq_false_iff_not, is_ascii_alpha, is_ascii_digit]
        rcases F6 with h6 | h6 <;> rw [h6] <;> omega
      have hc2 : is_cyr2_start (enc0 cp :: enc1 cp :: encLine r) = true := by
        simp only [is_cyr2_start, decide_eq_true_iff]
        exact ⟨F6, F7⟩
      simp only [symEnc, symVal, F1, List.cons_append, List.nil_append, peek_letter,
        is_tok_start, ha0, hc2, Bool.false_or, decide_eq_true_iff]
      exact FL

/-- The byte-level probe of a following digit agrees with the
codepoint-level digit peek. -/
theorem peek_digit_head_digit (rest : List TSym) (h : ∀ s ∈ rest, symOK s) :
    peek_digit (decode_utf8_next (encLine rest)) = head_digit (encLine rest) := by
  cases rest with
  | nil => rfl
  | cons s r =>
    have hs : symOK s := h s (List.mem_cons_self s r)
    rw [encLine_cons, decode_symEnc hs]
    cases s with
    | asc b =>
      simp [symEnc, symVal, peek_digit, head_digit]
    | cyr cp =>
      have hc : is_cyr_lower cp ∨ is_cyr_upper cp := hs
      obtain ⟨F1, -, -, -, -, F6, -, -, -, -, FD, -⟩ := cyr_facts hc
      have h0 : ¬ is_ascii_digit (enc0 cp) := by
        simp only [is_ascii_digit]
        rcases F6 with h6 | h6 <;> rw [h6] <;> omega
      simp [symEnc, symVal, F1, peek_digit, head_digit, h0, FD]

/-- lower_ascii_byte fixes every byte above the ASCII uppercase range. -/
theorem lower_ascii_byte_fix {b : Nat} (h : 90 < b) : lower_ascii_byte b = b := by
  unfold lower_ascii_byte
  rw [if_neg (by omega)]

/-- Well-formedness is preserved by the ASCII symbol pass. -/
theorem symOK_ascLowerSym {s : TSym} (h : symOK s) : symOK (ascLowerSym s) := by
  cases s with
  | asc b =>
    have hb : b < 0x80 := h
    show lower_ascii_byte b < 0x80
    unfold lower_ascii_byte
    split <;> omega
  | cyr cp => exact h

/-- The ASCII pass over an encoded line acts symbol by symbol. -/
theorem map_lower_encLine : ∀ pend : List TSym, (∀ s ∈ pend, symOK s) →
    (encLine pend).map lower_ascii_byte = encLine (pend.map ascLowerSym)
  | [], _ => rfl
  | s :: r, hOK => by
    have ih := map_lower_encLine r (fun t ht => hOK t (List.mem_cons_of_mem _ ht))
    rw [encLine_cons, List.map_append, ih, List.map_cons, encLine_cons]
    congr 1
    cases s with
    | asc b => rfl
    | cyr cp =>
      have hs : is_cyr_lower cp ∨ is_cyr_upper cp := hOK (TSym.cyr cp) (by simp)
      obtain ⟨F1, -, -, -, -, F6, F7, -⟩ := cyr_facts hs
      have h0 : lower_ascii_byte (enc0 cp) = enc0 cp := by
        apply lower_ascii_byte_fix
        rcases F6 with h6 | h6 <;> omega
      have h1 : lower_ascii_byte (enc1 cp) = enc1 cp := by
        apply lower_ascii_byte_fix
        omega
      simp [symEnc, ascLowerSym, F1, h0, h1]

/-- One window step of the Cyrillic pass, as the pair rewrite. -/
theorem cyr_go_cons2 (prev b1 : Nat) (X : List Nat) :
    lowercase_cyr_go prev (b1 :: X) =
      (cyr_step2 prev b1).1 :: lowercase_cyr_go (cyr_step2 prev b1).2 X := by
  simp only [lowercase_cyr_go, cyr_step2]
  repeat' split
  all_goals rfl

/-- The Cyrillic pass over an encoded line, started after a byte that is
not 0xD0, lowers the line symbol by symbol. -/
theorem cyr_go_encLine : ∀ (l : List TSym) (prev : Nat), prev ≠ 0xD0 →
    (∀ s ∈ l, symOK s) →
    lowercase_cyr_go prev (encLine l) = prev :: encLine (l.map cyrLowerSym)
  | [], prev, _, _ => rfl
  | s :: r, prev, hprev, hOK => by
    have hr : ∀ t ∈ r, symOK t := fun t ht => hOK t (List.mem_cons_of_mem _ ht)
    cases s with
    | asc b =>
      have hb : b < 0x80 := hOK (TSym.asc b) (by simp)
      rw [encLine_cons]
      show lowercase_cyr_go prev (b :: encLine r) = _
      rw [cyr_go_not_d0 hprev, lowercase_cyr_pass,
        cyr_go_encLine r b (by omega) hr, List.map_cons, encLine_cons]
      rfl
    | cyr cp =>
      have hs : is_cyr_lower cp ∨ is_cyr_upper cp := hOK (TSym.cyr cp) (by simp)
      obtain ⟨F1, -, -, -, -, F6, F7, F8, F9, -⟩ := cyr_facts hs
      obtain ⟨G1, -, -, -, -, -, G7, -⟩ := cyr_facts F8.1
      rw [encLine_cons]
      show lowercase_cyr_go prev (symEnc (TSym.cyr cp) ++ encLine r) = _
      rw [show symEnc (TSym.cyr cp) = append_utf8 cp from rfl, F1]
      show lowercase_cyr_go prev (enc0 cp :: enc1 cp :: encLine r) = _
      rw [cyr_go_not_d0 hprev, lowercase_cyr_pass, cyr_go_cons2, F9,
        cyr_go_encLine r (enc1 (to_lower_cp cp)) (by omega) hr,
        List.map_cons, encLine_cons,
        show symEnc (cyrLowerSym (TSym.cyr cp)) = append_utf8 (to_lower_cp cp) from rfl, G1]
      rfl

/-- The Cyrillic pass over an encoded line lowers it symbol by symbol. -/
theorem cyr_pass_encLine (l : List TSym) (hOK : ∀ s ∈ l, symOK s) :
    lowercase_cyr_pass (encLine l) = encLine (l.map cyrLowerSym) := by
  cases l with
  | nil => rfl
  | cons s r =>
    have hr : ∀ t ∈ r, symOK t := fun t ht => hOK t (List.mem_cons_of_mem _ ht)
    cases s with
    | asc b =>
      have hb : b < 0x80 := hOK (TSym.asc b) (by simp)
      rw [encLine_cons]
      show lowercase_cyr_pass (b :: encLine r) = _
      rw [lowercase_cyr_pass, cyr_go_encLine r b (by omega) hr, List.map_cons, encLine_cons]
      rfl
    | cyr cp =>
      have hs : is_cyr_lower cp ∨ is_cyr_upper cp := hOK (TSym.cyr cp) (by simp)
      obtain ⟨F1, -, -, -, -, F6, F7, F8, F9, -⟩ := cyr_facts hs
      obtain ⟨G1, -, -, -, -, -, G7, -⟩ := cyr_facts F8.1
      rw [encLine_cons]
      show lowercase_cyr_pass (symEnc (TSym.cyr cp) ++ encLine r) = _
      rw [show symEnc (TSym.cyr cp) = append_utf8 cp from rfl, F1]
      show lowercase_cyr_pass (enc0 cp :: enc1 cp :: encLine r) = _
      rw [lowercase_cyr_pass, cyr_go_cons2, F9,
        cyr_go_encLine r (enc1 (to_lower_cp cp)) (by omega) hr,
        List.map_cons, encLine_cons,
        show symEnc (cyrLowerSym (TSym.cyr cp)) = append_utf8 (to_lower_cp cp) from rfl, G1]
      rfl

/-- Flushing the pending bytes: the byte-level lowercase at flush time
equals the symbol-level lowering the codepoint tokenizer performed while
accumulating. -/
theorem lowercase_inplace_encLine (pend : List TSym) (hOK : ∀ s ∈ pend, symOK s) :
    lowercase_inplace (encLine pend) = encLine (pend.map symLower) := by
  unfold lowercase_inplace
  rw [map_lower_encLine pend hOK,
    cyr_pass_encLine _ (fun t ht => by
      obtain ⟨u, hu, rfl⟩ := List.mem_map.mp ht
      exact symOK_ascLowerSym (hOK u hu)),
    List.map_map]
  apply congrArg encLine
  apply List.map_congr_left
  intro s hsmem
  cases s with
  | asc b =>
    have hb : b < 0x80 := hOK (TSym.asc b) hsmem
    have := (ascii_facts b hb).1
    simp [Function.comp, ascLowerSym, cyrLowerSym, symLower, this]
  | cyr cp => rfl

/-- Unfolding equation of the byte tokenizer at end of input. -/
theorem tokenize_bool_go_nil (cur : List Nat) :
    tokenize_bool_go [] cur = if cur = [] then [] else [lowercase_inplace cur] := rfl

/-- Unfolding equation of the byte tokenizer on a head byte. -/
theorem tokenize_bool_go_cons (c : Nat) (rest cur : List Nat) :
    tokenize_bool_go (c :: rest) cur =
      (if is_ascii_alnum c then tokenize_bool_go rest (cur ++ [c])
      else if is_cyr2_start (c :: rest) = true then
        match rest with
        | b1 :: rest2 => tokenize_bool_go rest2 (cur ++ [c, b1])
        | [] => []
      else if cur ≠ [] ∧ (c = 45 ∨ c = 43 ∨ c = 39) ∧ is_tok_start rest = true then
        tokenize_bool_go rest (cur ++ [c])
      else if cur ≠ [] ∧ c = 46 ∧ last_digit cur = true ∧ head_digit rest = true then
        tokenize_bool_go rest (cur ++ [c])
      else (if cur = [] then [] else [lowercase_inplace cur]) ++ tokenize_bool_go rest []) := by
  cases rest <;> rfl

/-- A byte below 0xD0 never opens the two-byte Cyrillic window. -/
theorem is_cyr2_start_lt {b : Nat} (h : b < 0xD0) (X : List Nat) :
    is_cyr2_start (b :: X) = false := by
  cases X with
  | nil => rfl
  | cons c cs =>
    simp only [is_cyr2_start, decide_eq_false_iff_not]
    omega

/-- Symbol lowering preserves emptiness of the encoded pending token. -/
theorem map_symLower_eq_nil (pend : List TSym) :
    encLine (pend.map symLower) = [] ↔ encLine pend = [] := by
  rw [encLine_eq_nil_iff, encLine_eq_nil_iff, List.map_eq_nil_iff]

/-- Flushing: the codepoint-side pending token equals the byte-side
pending token after its deferred lowercase. -/
theorem flush_eq (pend : List TSym) (hOK : ∀ s ∈ pend, symOK s) :
    (if encLine (pend.map symLower) = [] then ([] : List (List Nat))
      else [encLine (pend.map symLower)]) =
    (if encLine pend = [] then [] else [lowercase_inplace (encLine pend)]) := by
  by_cases hp0 : encLine pend = []
  · rw [if_pos hp0, if_pos ((map_symLower_eq_nil pend).mpr hp0)]
  · rw [if_neg hp0, if_neg (fun h => hp0 ((map_symLower_eq_nil pend).mp h)),
      lowercase_inplace_encLine pend hOK]

/-- Appending one symbol to the pending list, encoded. -/
theorem encLine_push (P : List TSym) (x : TSym) :
    encLine (P ++ [x]) = encLine P ++ symEnc x := by
  rw [encLine_append]
  simp [encLine]

/-- The simulation: on a well-formed symbol line with no apostrophe-digit
adjacency, the codepoint tokenizer with its eagerly lowered pending token
and the byte tokenizer with its raw pending token run in lockstep. -/
theorem tokenize_agree_go : ∀ (l : List TSym) (pend : List TSym),
    (∀ s ∈ l, symOK s) → (∀ s ∈ pend, symOK s) → no_apos_digit l →
    tokenize_cp_go (encLine l) (encLine (pend.map symLower)) =
      tokenize_bool_go (encLine l) (encLine pend) := by
  intro l
  induction l with
  | nil =>
    intro pend _ hp _
    rw [show encLine [] = [] from rfl,
      tokenize_cp_go_none (show decode_utf8_next [] = none from rfl), tokenize_bool_go_nil]
    exact flush_eq pend hp
  | cons s rest ih =>
    intro pend hl hp hch
    have hs : symOK s := hl s (List.mem_cons_self s rest)
    have hrestOK : ∀ t ∈ rest, symOK t := fun t ht => hl t (List.mem_cons_of_mem _ ht)
    have hch' : no_apos_digit rest := hch.tail
    have hpushOK : ∀ x : TSym, symOK x → ∀ t ∈ pend ++ [x], symOK t := by
      intro x hx t ht
      rcases List.mem_append.mp ht with h | h
      · exact hp t h
      · rw [List.mem_singleton.mp h]
        exact hx
    have hmapOK : ∀ t ∈ pend.map symLower, symOK t := by
      intro t ht
      obtain ⟨u, hu, rfl⟩ := List.mem_map.mp ht
      exact symOK_symLower (hp u hu)
    have hflush := flush_eq pend hp
    have hihnil : tokenize_cp_go (encLine rest) [] = tokenize_bool_go (encLine rest) [] := by
      have := ih [] hrestOK (by simp) hch'
      simpa [encLine] using this
    rw [encLine_cons]
    have hdec := decode_symEnc hs (encLine rest)
    rw [tokenize_cp_go_some hdec, drop_symEnc]
    cases s with
    | cyr cp =>
      have hc : is_cyr_lower cp ∨ is_cyr_upper cp := hs
      obtain ⟨F1, -, -, -, -, F6, F7, F8, -, FL, -⟩ := cyr_facts hc
      have ha0 : is_ascii_alnum (enc0 cp) = false := by
        simp only [is_ascii_alnum, decide_eq_false_iff_not, is_ascii_alpha, is_ascii_digit]
        rcases F6 with h6 | h6 <;> rw [h6] <;> omega
      have hc2 : is_cyr2_start (enc0 cp :: enc1 cp :: encLine rest) = true := by
        simp only [is_cyr2_start, decide_eq_true_iff]
        exact ⟨F6, F7⟩
      rw [if_pos (show is_alnum (symVal (TSym.cyr cp)) from Or.inl FL)]
      rw [show symEnc (TSym.cyr cp) = [enc0 cp, enc1 cp] from F1]
      show tokenize_cp_go (encLine rest)
          (encLine (List.map symLower pend) ++ append_utf8 (to_lower_cp (symVal (TSym.cyr cp)))) =
        tokenize_bool_go (enc0 cp :: enc1 cp :: encLine rest) (encLine pend)
      rw [tokenize_bool_go_cons, if_neg (by simp [ha0]), if_pos hc2]
      show tokenize_cp_go (encLine rest)
          (encLine (List.map symLower pend) ++ append_utf8 (to_lower_cp cp)) =
        tokenize_bool_go (encLine rest) (encLine pend ++ [enc0 cp, enc1 cp])
      have harg1 : encLine (List.map symLower pend) ++ append_utf8 (to_lower_cp cp) =
          encLine (List.map symLower (pend ++ [TSym.cyr cp])) := by
        rw [List.map_append, List.map_cons, List.map_nil, encLine_push,
          show symEnc (symLower (TSym.cyr cp)) = append_utf8 (to_lower_cp cp) from rfl]
      have harg2 : encLine pend ++ [enc0 cp, enc1 cp] = encLine (pend ++ [TSym.cyr cp]) := by
        rw [encLine_push, show symEnc (TSym.cyr cp) = [enc0 cp, enc1 cp] from F1]
      rw [harg1, harg2]
      exact ih (pend ++ [TSym.cyr cp]) hrestOK (hpushOK _ hs) hch'
    | asc b =>
      have hb : b < 0x80 := hs
      obtain ⟨A1, A2, A3, A4, A5, A6, A7⟩ := ascii_facts b hb
      have hcyr2 : is_cyr2_start (b :: encLine rest) = false := is_cyr2_start_lt (by omega) _
      rw [show symEnc (TSym.asc b) = [b] from rfl]
      simp only [List.cons_append, List.nil_append, symVal]
      rw [tokenize_bool_go_cons]
      by_cases halnum : is_ascii_alnum b = true
      · rw [if_pos (A3.mpr halnum), if_pos halnum]
        have hlow : append_utf8 (to_lower_cp b) = [to_lower_cp b] := by
          unfold append_utf8
          rw [if_pos (by omega)]
        rw [hlow,
          show (encLine (List.map symLower pend) ++ [to_lower_cp b]) =
            encLine (List.map symLower (pend ++ [TSym.asc b])) by
              rw [List.map_append, List.map_cons, List.map_nil, encLine_push]; rfl,
          show encLine pend ++ [b] = encLine (pend ++ [TSym.asc b]) from
            (encLine_push pend (TSym.asc b)).symm]
        exact ih (pend ++ [TSym.asc b]) hrestOK (hpushOK _ hs) hch'
      · have hnal : ¬ is_alnum b := fun h => halnum (A3.mp h)
        rw [if_neg hnal, if_neg halnum, if_neg (show ¬ (is_cyr2_start (b :: encLine rest) = true) from by simp [hcyr2]),
          peek_alnum_tok_start rest hrestOK, peek_digit_head_digit rest hrestOK]
        have htokne : encLine (List.map symLower pend) ≠ [] ↔ encLine pend ≠ [] :=
          not_congr (map_symLower_eq_nil pend)
        by_cases h45 : b = 45
        · subst h45
          by_cases hcond : encLine pend ≠ [] ∧ is_tok_start (encLine rest) = true
          · rw [if_pos ⟨A4.mpr rfl, htokne.mpr hcond.1, hcond.2⟩,
              if_pos ⟨hcond.1, Or.inl rfl, hcond.2⟩,
              show append_utf8 45 = [45] from by decide,
              show (encLine (List.map symLower pend) ++ [45]) =
                encLine (List.map symLower (pend ++ [TSym.asc 45])) by
                  rw [List.map_append, List.map_cons, List.map_nil, encLine_push]
                  rfl,
              show encLine pend ++ [45] = encLine (pend ++ [TSym.asc 45]) from
                (encLine_push pend (TSym.asc 45)).symm]
            exact ih (pend ++ [TSym.asc 45]) hrestOK (hpushOK _ hs) hch'
          · conv_lhs => rw [if_neg (fun hc => hcond ⟨htokne.mp hc.2.1, hc.2.2⟩),
              if_neg (fun hc => absurd hc.1 (by decide)),
              if_neg (fun hc => absurd hc.1 (by decide)),
              if_neg (fun hc => absurd (A5.mp hc.1) (by decide))]
            conv_rhs => rw [if_neg (fun hc => hcond ⟨hc.1, hc.2.2⟩),
              if_neg (fun hc => absurd hc.2.1 (by decide))]
            rw [hflush, hihnil]
        · by_cases h43 : b = 43
          · subst h43
            by_cases hcond : encLine pend ≠ [] ∧ is_tok_start (encLine rest) = true
            · rw [if_neg (fun hc => absurd (A4.mp hc.1) (by decide)),
                if_pos ⟨rfl, htokne.mpr hcond.1, hcond.2⟩,
                if_pos ⟨hcond.1, Or.inr (Or.inl rfl), hcond.2⟩,
                show append_utf8 43 = [43] from by decide,
                show (encLine (List.map symLower pend) ++ [43]) =
                  encLine (List.map symLower (pend ++ [TSym.asc 43])) by
                    rw [List.map_append, List.map_cons, List.map_nil, encLine_push]
                    rfl,
                show encLine pend ++ [43] = encLine (pend ++ [TSym.asc 43]) from
                (encLine_push pend (TSym.asc 43)).symm]
              exact ih (pend ++ [TSym.asc 43]) hrestOK (hpushOK _ hs) hch'
            · conv_lhs => rw [if_neg (fun hc => absurd (A4.mp hc.1) (by decide)),
                if_neg (fun hc => hcond ⟨htokne.mp hc.2.1, hc.2.2⟩),
                if_neg (fun hc => absurd hc.1 (by decide)),
                if_neg (fun hc => absurd (A5.mp hc.1) (by decide))]
              conv_rhs => rw [if_neg (fun hc => hcond ⟨hc.1, hc.2.2⟩),
                if_neg (fun hc => absurd hc.2.1 (by decide))]
              rw [hflush, hihnil]
          · by_cases h39 : b = 39
            · subst h39
              have hnd : ∀ d, rest.head? = some (TSym.asc d) → ¬ is_ascii_digit d := by
                intro d hd hdig
                cases rest with
                | nil => cases hd
                | cons s2 r2 =>
                  obtain ⟨hR, -⟩ := List.chain'_cons.mp hch
                  have hs2 : s2 = TSym.asc d := by simpa using hd
                  subst hs2
                  exact hR ⟨rfl, hdig⟩
              rw [peek_letter_tok_start rest hrestOK hnd]
              by_cases hcond : encLine pend ≠ [] ∧ is_tok_start (encLine rest) = true
              · rw [if_neg (fun hc => absurd (A4.mp hc.1) (by decide)),
                  if_neg (fun hc => absurd hc.1 (by decide)),
                  if_neg (fun hc => absurd hc.1 (by decide)),
                  if_pos ⟨A5.mpr rfl, htokne.mpr hcond.1, hcond.2⟩,
                  if_pos ⟨hcond.1, Or.inr (Or.inr rfl), hcond.2⟩,
                  show append_utf8 39 = [39] from by decide,
                  show (encLine (List.map symLower pend) ++ [39]) =
                    encLine (List.map symLower (pend ++ [TSym.asc 39])) by
                      rw [List.map_append, List.map_cons, List.map_nil, encLine_push]
                      rfl,
                  show encLine pend ++ [39] = encLine (pend ++ [TSym.asc 39]) from
                    (encLine_push pend (TSym.asc 39)).symm]
                exact ih (pend ++ [TSym.asc 39]) hrestOK (hpushOK _ hs) hch'
              · conv_lhs => rw [if_neg (fun hc => absurd (A4.mp hc.1) (by decide)),
                  if_neg (fun hc => absurd hc.1 (by decide)),
                  if_neg (fun hc => absurd hc.1 (by decide)),
                  if_neg (fun hc => hcond ⟨htokne.mp hc.2.1, hc.2.2⟩)]
                conv_rhs => rw [if_neg (fun hc => hcond ⟨hc.1, hc.2.2⟩),
                  if_neg (fun hc => absurd hc.2.1 (by decide))]
                rw [hflush, hihnil]
            · by_cases h46 : b = 46
              · subst h46
                have hldiff : last_digit (encLine (List.map symLower pend)) = true ↔
                    last_digit (encLine pend) = true := by
                  rw [last_digit_encLine _ hmapOK, last_digit_encLine pend hp,
                    pend_last_digit_symLower pend hp]
                by_cases hcond : last_digit (encLine pend) = true ∧
                    head_digit (encLine rest) = true
                · have hcurne : encLine pend ≠ [] := by
                    intro h0
                    rw [h0] at hcond
                    exact absurd hcond.1 (by simp [last_digit])
                  rw [if_neg (fun hc => absurd (A4.mp hc.1) (by decide)),
                    if_neg (fun hc => absurd hc.1 (by decide)),
                    if_pos ⟨rfl, hldiff.mpr hcond.1, hcond.2⟩,
                    if_neg (fun hc => by
                      rcases hc.2.1 with h | h | h <;> exact absurd h (by decide)),
                    if_pos ⟨hcurne, rfl, hcond.1, hcond.2⟩,
                    show append_utf8 46 = [46] from by decide,
                    show (encLine (List.map symLower pend) ++ [46]) =
                      encLine (List.map symLower (pend ++ [TSym.asc 46])) by
                        rw [List.map_append, List.map_cons, List.map_nil, encLine_push]
                        rfl,
                    show encLine pend ++ [46] = encLine (pend ++ [TSym.asc 46]) from
                (encLine_push pend (TSym.asc 46)).symm]
                  exact ih (pend ++ [TSym.asc 46]) hrestOK (hpushOK _ hs) hch'
                · conv_lhs => rw [if_neg (fun hc => absurd (A4.mp hc.1) (by decide)),
                    if_neg (fun hc => absurd hc.1 (by decide)),
                    if_neg (fun hc => hcond ⟨hldiff.mp hc.2.1, hc.2.2⟩),
                    if_neg (fun hc => absurd (A5.mp hc.1) (by decide))]
                  conv_rhs => rw [if_neg (fun hc => by
                      rcases hc.2.1 with h | h | h <;> exact absurd h (by decide)),
                    if_neg (fun hc => hcond ⟨hc.2.2.1, hc.2.2.2⟩)]
                  rw [hflush, hihnil]
              · conv_lhs => rw [if_neg (fun hc => h45 (A4.mp hc.1)),
                  if_neg (fun hc => h43 hc.1),
                  if_neg (fun hc => h46 hc.1),
                  if_neg (fun hc => h39 (A5.mp hc.1))]
                conv_rhs => rw [if_neg (fun hc => by
                    rcases hc.2.1 with h | h | h
                    · exact h45 h
                    · exact h43 h
                    · exact h39 h),
                  if_neg (fun hc => h46 hc.2.1)]
                rw [hflush, hihnil]

/-- C7: for every input line made only of ASCII characters and well-formed
UTF-8 Cyrillic letters, the codepoint-level tokenizer of lab3/tokenize and
the byte-level tokenizer of the bool_index tool emit the same token
sequence — PROVIDED no apostrophe is immediately followed by an ASCII
digit.  On that adjacency the two disagree (see the counterexample), so
the claim holds only in this amended form. -/
theorem C7_tokenizers_agree (l : List TSym)
    (hOK : ∀ s ∈ l, symOK s) (hapos : no_apos_digit l) :
    tokenize_line_cp (encLine l) = tokenize_line_bool (encLine l) := by
  have h := tokenize_agree_go l [] hOK (by simp) hapos
  simpa [tokenize_line_cp, tokenize_line_bool, encLine] using h

/-- Witness for C7: a mixed ASCII-Cyrillic line on which the amended
equivalence applies. -/
theorem C7_witness :
    (∀ s ∈ [TSym.asc 97, TSym.cyr 0x41F, TSym.asc 45, TSym.cyr 0x431], symOK s) ∧
    no_apos_digit [TSym.asc 97, TSym.cyr 0x41F, TSym.asc 45, TSym.cyr 0x431] ∧
    tokenize_line_cp (encLine [TSym.asc 97, TSym.cyr 0x41F, TSym.asc 45, TSym.cyr 0x431]) =
      tokenize_line_bool (encLine [TSym.asc 97, TSym.cyr 0x41F, TSym.asc 45, TSym.cyr 0x431]) :=
  ⟨by decide, by decide, C7_tokenizers_agree _ (by decide) (by decide)⟩

set_option maxRecDepth 16384 in
/-- Counterexample to C7 as frozen: the pure-ASCII line `a、APOSTROPHE、1`
is tokenized as two tokens `a`, `1` by the codepoint tokenizer (the
apostrophe join requires a following letter) but as the single token
`a APOSTROPHE 1` by the byte tokenizer (its join only requires a following
token-start byte, which digits satisfy). -/
theorem C7_counterexample :
    (∀ s ∈ [TSym.asc 97, TSym.asc 39, TSym.asc 49], symOK s) ∧
    tokenize_line_cp (encLine [TSym.asc 97, TSym.asc 39, TSym.asc 49]) = [[97], [49]] ∧
    tokenize_line_bool (encLine [TSym.asc 97, TSym.asc 39, TSym.asc 49]) = [[97, 39, 49]] ∧
    tokenize_line_cp (encLine [TSym.asc 97, TSym.asc 39, TSym.asc 49]) ≠
      tokenize_line_bool (encLine [TSym.asc 97, TSym.asc 39, TSym.asc 49]) := by
  have hcp : tokenize_line_cp (encLine [TSym.asc 97, TSym.asc 39, TSym.asc 49]) =
      [[97], [49]] := by
    simp [tokenize_line_cp, tokenize_cp_go, decode_utf8_next, peek_alnum, peek_letter,
      peek_digit, last_digit, append_utf8, to_lower_cp, is_alnum, is_letter, is_hyphen,
      is_apostrophe, is_ascii_digit, is_ascii_upper, is_cyr_lower, is_cyr_upper, is_greek,
      encLine, symEnc]
  have hbl : tokenize_line_bool (encLine [TSym.asc 97, TSym.asc 39, TSym.asc 49]) =
      [[97, 39, 49]] := by decide
  refine ⟨by decide, hcp, hbl, ?_⟩
  rw [hcp, hbl]
  decide

end IRSpec
